import Mathlib

/-!
Verification development for the BD TOPO acquisition pipeline
(`backend/services/bdtopo.py`, `backend/services/mtn.py`).

The Python source is shallowly embedded: pure helpers become Lean
functions, file-system effects become explicit state passing over an
association-list file system, and network / library calls that the code
only observes through their results become oracle parameters.  Fallible
code returns `Except`.
-/

set_option maxHeartbeats 1000000

namespace BdTopo

/-! ## Generic string helpers mirroring Python primitives -/

/-- Python `needle in hay` (substring containment) on character lists. -/
def containsSubAux (needle : List Char) : List Char → Bool
  | [] => needle.isPrefixOf []
  | c :: rest => needle.isPrefixOf (c :: rest) || containsSubAux needle rest

/-- Python `needle in hay` for strings. -/
def strContains (hay needle : String) : Bool :=
  containsSubAux needle.toList hay.toList

/-- Python `s.lower()` (character-wise, sufficient for the ASCII tokens
the source compares). -/
def pyLower (s : String) : String :=
  ⟨s.data.map Char.toLower⟩

/-- Python `s.strip()` on a character list. -/
def pyTrimList (l : List Char) : List Char :=
  ((l.dropWhile Char.isWhitespace).reverse.dropWhile Char.isWhitespace).reverse

/-- Python `s.strip()`. -/
def pyTrim (s : String) : String :=
  ⟨pyTrimList s.data⟩

/-- Python `s.endswith(suffixStr)`. -/
def pyEndsWith (s suffixStr : String) : Bool :=
  suffixStr.data.reverse.isPrefixOf s.data.reverse

/-- Python `c in s` for a single character. -/
def pyContainsChar (s : String) (c : Char) : Bool :=
  s.data.contains c

/-- Python `s[:n]`. -/
def pyTake (s : String) (n : Nat) : String :=
  ⟨s.data.take n⟩

/-- Python `list(dict.fromkeys(l))`: keep the first occurrence of each
element, preserving order.  Mirrors the insertion-order semantics of
`dict.fromkeys`. -/
def pyDedup (l : List String) : List String :=
  l.foldl (fun acc x => if x ∈ acc then acc else acc ++ [x]) []

/-- Structural-recursion presentation of `pyDedup` (same function, with the
set of already-seen keys made explicit), used for proofs. -/
def dedupAcc (seen : List String) : List String → List String
  | [] => []
  | x :: xs => if x ∈ seen then dedupAcc seen xs else x :: dedupAcc (seen ++ [x]) xs

/-! ## Capabilities probe (`_get_wfs_output_formats`, `_get_wfs_feature_type_names`)

The XML document is embedded as the sequence of its elements in
`root.iter()` order; an element is its tag together with its optional
text. -/

/-- One element of a parsed capabilities document. -/
structure XElem where
  tag : String
  text : Option String
deriving DecidableEq

/-- The token the output-format scan extracts from one element, if any:
tag must end (case-insensitively) in "value" and the text must be truthy
with non-blank strip.  Mirrors lines 297-302 of `bdtopo.py`. -/
def elemFormatToken (e : XElem) : Option String :=
  match e.text with
  | some t =>
      if pyEndsWith (pyLower e.tag) "value" && t != "" && pyTrim t != "" then some (pyTrim t)
      else none
  | none => none

/-- The token the feature-type scan extracts from one element, if any:
tag must end (case-insensitively) in "name" and the stripped text must
contain a namespace separator.  Mirrors lines 318-323 of `bdtopo.py`. -/
def elemTypeNameToken (e : XElem) : Option String :=
  match e.text with
  | some t =>
      if pyEndsWith (pyLower e.tag) "name" && t != "" && pyContainsChar (pyTrim t) ':' then some (pyTrim t)
      else none
  | none => none

/-- Raw output-format tokens of a document, in document order. -/
def outputFormatTokens (doc : List XElem) : List String :=
  doc.filterMap elemFormatToken

/-- Raw feature-type-name tokens of a document, in document order. -/
def typeNameTokens (doc : List XElem) : List String :=
  doc.filterMap elemTypeNameToken

/-- `_get_wfs_output_formats` on an already-parsed document:
`list(dict.fromkeys(values))`. -/
def getWfsOutputFormats (doc : List XElem) : List String :=
  pyDedup (outputFormatTokens doc)

/-- `_get_wfs_feature_type_names` on an already-parsed document:
`list(dict.fromkeys(names))`. -/
def getWfsFeatureTypeNames (doc : List XElem) : List String :=
  pyDedup (typeNameTokens doc)

/-! ## Output-format negotiation (`_download_layer_shapefile`, lines 151-158) -/

/-- A format token is shape-like when its lowering contains one of
"shape", "shp", "zip". -/
def isShapeLike (fmt : String) : Bool :=
  strContains (pyLower fmt) "shape" || strContains (pyLower fmt) "shp" || strContains (pyLower fmt) "zip"

/-- The fixed fallback format list of `_download_layer_shapefile`. -/
def fallbackFormats : List String :=
  ["shapezip", "shape-zip", "application/zip", "SHAPE-ZIP", "zip"]

/-- Advertised shape-like tokens, in advertised order. -/
def preferredShapeLike (declaredFormats : List String) : List String :=
  declaredFormats.filter isShapeLike

/-- The negotiated candidate-format list: advertised shape-like tokens
followed by the fallback tokens whose lowering is not already the
lowering of a preferred token.  Mirrors lines 152-158 of `bdtopo.py`. -/
def candidateFormats (declaredFormats : List String) : List String :=
  let preferred := preferredShapeLike declaredFormats
  preferred ++ fallbackFormats.filter
    (fun fmt => !((preferred.map pyLower).contains (pyLower fmt)))

/-! ## Type-name resolution (`_resolve_typename_candidates`, lines 327-343) -/

/-- `candidates.append(name)` guarded by `name not in candidates`. -/
def addCandidate (cands : List String) (n : String) : List String :=
  if n ∈ cands then cands else cands ++ [n]

/-- One of the three scan passes of `_resolve_typename_candidates`: append
every available name satisfying `p` that is not yet a candidate. -/
def scanPass (p : String → Bool) (avail : List String) (cands : List String) : List String :=
  avail.foldl (fun cs n => if p n then addCandidate cs n else cs) cands

/-- Exact case-insensitive match against the trimmed desired identifier. -/
def exactMatch (lowerBase : String) (n : String) : Bool :=
  pyLower n == lowerBase

/-- Case-insensitive match of the local (post-separator) part. -/
def localPartMatch (lowerBase : String) (n : String) : Bool :=
  pyEndsWith (pyLower n) (":" ++ lowerBase)

/-- Case-insensitive substring match. -/
def substrMatch (lowerBase : String) (n : String) : Bool :=
  strContains (pyLower n) lowerBase

/-- `_resolve_typename_candidates`: desired identifier first, then exact
case-insensitive matches, then (for namespace-less identifiers) local-part
matches, then substring matches, deduplicated by exact string identity. -/
def resolveTypenameCandidates (typename : String) (availableNames : List String) : List String :=
  let base := pyTrim typename
  if availableNames.isEmpty then [base]
  else
    let lowerBase := pyLower base
    let c2 := scanPass (exactMatch lowerBase) availableNames [base]
    let c3 := if pyContainsChar base ':' then c2
      else scanPass (localPartMatch lowerBase) availableNames c2
    scanPass (substrMatch lowerBase) availableNames c3

/-! ## Resilient fetch loop (`_download_layer_shapefile`, lines 160-199)

The network and the archive pipeline are abstracted into oracles giving,
per attempted output format, the HTTP response (or network error) and the
outcome of persisting + extracting the returned body.  The loop structure,
response classification, diagnostic bookkeeping and terminal error are
modelled from the source. -/

/-- An HTTP response as the fetch loop observes it. -/
structure HttpResp where
  status : Nat
  contentType : String
  body : String
deriving DecidableEq

/-- Result of one `HTTP_SESSION.get`: a response, or a
`requests.RequestException` with its message. -/
inductive NetResult where
  | netErr (msg : String)
  | resp (r : HttpResp)
deriving DecidableEq

/-- Outcome of persisting the body and running `_safe_extract_zip` on it:
a `RuntimeError` message, or the list of extracted paths of which we keep
whether some `.shp` member exists and, if so, the first one. -/
inductive ExtractOutcome where
  | fail (msg : String)
  | ok (shpFiles : List String)
deriving DecidableEq

/-- Response classification of lines 175-176: declared or sniffed markup
payload (`"xml" in content_type` or body starting with `<?xml`, case
folded, first five bytes). -/
def isErrorPayload (r : HttpResp) : Bool :=
  strContains (pyLower r.contentType) "xml" ||
    (r.body.data.take 5).map Char.toLower == "<?xml".toList

/-- The exhaustion error of line 199, with the diagnostic truncated to 200
characters. -/
def exhaustedError (typename lastError : String) : String :=
  "Echec WFS SHP pour " ++ typename ++ ". Derniere erreur: " ++ pyTake lastError 200

/-- The per-format failure diagnostic, `none` when the attempt succeeds
(yields a `.shp`).  Mirrors the updates of `last_error` in lines 163-198. -/
def attemptDiag (net : String → NetResult) (extract : String → ExtractOutcome)
    (typename fmt : String) : Option String :=
  match net fmt with
  | .netErr m => some ("Erreur reseau: " ++ m)
  | .resp r =>
      if r.status ≠ 200 then some ("HTTP " ++ toString r.status ++ ": " ++ r.body)
      else if isErrorPayload r then some r.body
      else
        match extract fmt with
        | .fail m => some m
        | .ok shpFiles =>
            if shpFiles.isEmpty then
              some ("Aucun .shp trouve apres extraction pour " ++ typename)
            else none

/-- The candidate-format loop of `_download_layer_shapefile`: try each
format in order, remembering the last diagnostic; return the first
extracted `.shp` path, or raise the exhaustion error once every candidate
failed. -/
def downloadLoop (net : String → NetResult) (extract : String → ExtractOutcome)
    (typename : String) : List String → String → Except String String
  | [], lastError => .error (exhaustedError typename lastError)
  | fmt :: rest, lastError =>
      match attemptDiag net extract typename fmt with
      | some d => downloadLoop net extract typename rest d
      | none =>
          match extract fmt with
          | .ok (p :: _) => .ok p
          | _ => .error (exhaustedError typename lastError)

/-- `_download_layer_shapefile` after format negotiation: run the loop
over the negotiated candidates with an empty initial diagnostic. -/
def downloadLayerShapefile (net : String → NetResult) (extract : String → ExtractOutcome)
    (typename : String) (declaredFormats : List String) : Except String String :=
  downloadLoop net extract typename (candidateFormats declaredFormats) ""

/-- The diagnostic in hand when the loop has consumed all formats. -/
def finalDiag (net : String → NetResult) (extract : String → ExtractOutcome)
    (typename : String) : List String → String → String
  | [], lastError => lastError
  | fmt :: rest, lastError =>
      match attemptDiag net extract typename fmt with
      | some d => finalDiag net extract typename rest d
      | none => lastError

/-! ## Attribute table model (`_set_code_lu_field`, lines 202-251)

A shapefile bundle's logical content: ordered field definitions (the
`DeletionFlag` pseudo-field is already dropped, as the source does with
`reader.fields[1:]`), one value row per record, and one opaque geometry
per record. -/

/-- A DBF field value. -/
inductive FVal where
  | intv (i : Int)
  | strv (s : String)
deriving DecidableEq

/-- A DBF field definition `(name, type, size, decimals)`. -/
structure FieldDef where
  name : String
  ftype : String
  size : Nat
  dec : Nat
deriving DecidableEq

/-- The logical content of a shapefile bundle. -/
structure Table where
  fields : List FieldDef
  records : List (List FVal)
  geoms : List Nat
deriving DecidableEq

/-- The reserved classification field appended when absent. -/
def codeLuFieldDef : FieldDef := ⟨"CODE_LU", "N", 10, 0⟩

/-- Index of the `CODE_LU` field: `field_names.index("CODE_LU")` when
`has_code_lu`, otherwise absent. -/
def codeLuIdx (fields : List FieldDef) : Option Nat :=
  let names := fields.map FieldDef.name
  if "CODE_LU" ∈ names then some (names.indexOf "CODE_LU") else none

/-- The rewritten schema: unchanged when `CODE_LU` exists, otherwise the
new fixed-width integer field is appended. -/
def newFields (fields : List FieldDef) : List FieldDef :=
  match codeLuIdx fields with
  | some _ => fields
  | none => fields ++ [codeLuFieldDef]

/-- The per-record transformation: overwrite the existing `CODE_LU` slot,
or append the value. -/
def transformRec (idx : Option Nat) (code : Int) (r : List FVal) : List FVal :=
  match idx with
  | some i => r.set i (.intv code)
  | none => r ++ [.intv code]

/-- The pure content transformation performed by `_set_code_lu_field`:
schema via `newFields`, every record via `transformRec`, geometries
untouched. -/
def setCodeLuTable (t : Table) (code : Int) : Table :=
  ⟨newFields t.fields, t.records.map (transformRec (codeLuIdx t.fields) code), t.geoms⟩

/-- A table is well-formed when every record has one value per field. -/
def Table.WF (t : Table) : Prop :=
  ∀ r ∈ t.records, r.length = t.fields.length

instance (t : Table) : Decidable t.WF := by
  unfold Table.WF; infer_instance

/-! ## File-system model for the attribute augmenter (C1)

`_set_code_lu_field` manipulates exactly the sibling files of one bundle:
the original `.shp`/`.shx`/`.dbf` set and the `_tmp` sibling set produced
by `shp_path.with_name(f"{stem}_tmp")`.  A path is therefore embedded as
a base name, a tmp marker, and an extension; the file system is an
association list from such paths to typed file contents. -/

/-- The three bundle extensions the augmenter touches. -/
inductive BExt where
  | shp
  | shx
  | dbf
deriving DecidableEq

/-- A bundle-sibling path. -/
structure BPath where
  base : String
  tmp : Bool
  ext : BExt
deriving DecidableEq

/-- Typed file contents: the attribute table, the geometry file, the
index file. -/
inductive FContent where
  | dbfC (fields : List FieldDef) (records : List (List FVal))
  | shpC (geoms : List Nat)
  | shxC (count : Nat)
deriving DecidableEq

/-- The file system: an association list, first binding wins. -/
abbrev BFS := List (BPath × FContent)

/-- Read a path. -/
def BFS.read (fs : BFS) (p : BPath) : Option FContent :=
  match fs with
  | [] => none
  | (q, c) :: rest => if q = p then some c else BFS.read rest p

/-- Remove a path (`unlink(missing_ok=True)`). -/
def BFS.unlink (fs : BFS) (p : BPath) : BFS :=
  match fs with
  | [] => []
  | (q, c) :: rest => if q = p then BFS.unlink rest p else (q, c) :: BFS.unlink rest p

/-- Write (create or overwrite) a path. -/
def BFS.write (fs : BFS) (p : BPath) (c : FContent) : BFS :=
  (p, c) :: fs.unlink p

/-- Original-bundle path. -/
def origPath (base : String) (e : BExt) : BPath := ⟨base, false, e⟩

/-- Temporary-sibling path (`{stem}_tmp` + extension). -/
def tmpPath (base : String) (e : BExt) : BPath := ⟨base, true, e⟩

/-- What `_open_shapefile_reader_with_fallback` + `reader.fields`/records
expose: the bundle's logical table, or `None` when the bundle is missing
or inconsistent on disk. -/
def readBundle (fs : BFS) (base : String) : Option Table :=
  match fs.read (origPath base .dbf), fs.read (origPath base .shp) with
  | some (.dbfC fields records), some (.shpC geoms) => some ⟨fields, records, geoms⟩
  | _, _ => none

/-- Failure oracle for one augmenter run.  `openFail` models the encoding
fallback of `_open_shapefile_reader_with_fallback` exhausting all
encodings (raised before the `try` block); `failAt = some k` models an
exception (decoding, transformation, or pyshp write error) raised inside
the `try` block while processing record `k`, after the first `k` records
were already written to the temporary files. -/
structure AugmentOracle where
  openFail : Bool
  failAt : Option Nat
deriving DecidableEq

/-- On-disk state of the temporary files once the writer has emitted the
given geometries and records. -/
def writeTmpState (base : String) (fields : List FieldDef) (geoms : List Nat)
    (records : List (List FVal)) (fs : BFS) : BFS :=
  ((fs.write (tmpPath base .shp) (.shpC geoms)).write
      (tmpPath base .shx) (.shxC records.length)).write
    (tmpPath base .dbf) (.dbfC fields records)

/-- The record loop of lines 224-231: process the zipped
(geometry, record) pairs in order, extending the temporary files after
each iteration; stop with the current disk state when the oracle injects
a failure. `.inl` is the state at the moment the exception is raised,
`.inr` the state after a complete write. -/
def augmentLoop (base : String) (fields : List FieldDef) (idx : Option Nat) (code : Int)
    (failAt : Option Nat) (k : Nat) (accG : List Nat) (accR : List (List FVal))
    (fs : BFS) : List (Nat × List FVal) → BFS ⊕ BFS
  | [] => .inr fs
  | (g, r) :: rest =>
      if failAt = some k then .inl fs
      else
        let accG := accG ++ [g]
        let accR := accR ++ [transformRec idx code r]
        augmentLoop base fields idx code failAt (k + 1) accG accR
          (writeTmpState base fields accG accR fs) rest

/-- The cleanup of lines 242-243: unlink the three temporary siblings. -/
def cleanupTmp (base : String) (fs : BFS) : BFS :=
  ((fs.unlink (tmpPath base .shp)).unlink (tmpPath base .shx)).unlink (tmpPath base .dbf)

/-- The replacement of lines 248-251: for each extension, if the
temporary file exists, rename it over the original. -/
def replaceOne (base : String) (e : BExt) (fs : BFS) : BFS :=
  match fs.read (tmpPath base e) with
  | some c => (fs.write (origPath base e) c).unlink (tmpPath base e)
  | none => fs

/-- Replace all three extensions, in source order. -/
def replaceAll (base : String) (fs : BFS) : BFS :=
  replaceOne base .dbf (replaceOne base .shx (replaceOne base .shp fs))

/-- `_set_code_lu_field` as a state transition: `.error` carries the
message and the resulting file system.  The reader is opened before the
`try` block (a failure there propagates with the disk untouched); the
temporary files are created empty when the writer is constructed, grown
by the record loop, removed by the `except` handler on any in-`try`
failure, and renamed over the originals after a complete write. -/
def setCodeLuFS (orc : AugmentOracle) (fs : BFS) (base : String) (code : Int) :
    Except (String × BFS) BFS :=
  match readBundle fs base with
  | none => .error ("Impossible de lire le DBF (encodage inconnu) pour " ++ base, fs)
  | some t =>
      if orc.openFail then
        .error ("Impossible de lire le DBF (encodage inconnu) pour " ++ base, fs)
      else
        let idx := codeLuIdx t.fields
        let fields := newFields t.fields
        let fs1 := writeTmpState base fields [] [] fs
        match augmentLoop base fields idx code orc.failAt 0 [] [] fs1
            (t.geoms.zip t.records) with
        | .inl fsFail =>
            .error ("Erreur pendant la reecriture du bundle " ++ base,
              cleanupTmp base fsFail)
        | .inr fsDone => .ok (replaceAll base fsDone)

/-! ## Safe archive extraction (`_safe_extract_zip`, lines 269-282)

Paths are embedded as component lists from the root.  A zip member is
its name split into components, with an absolute-path marker (pathlib
`out_dir / name` discards `out_dir` when `name` is absolute).  `resolve`
normalises `.` and `..` components; the destination is compared by
component-wise prefix, matching `target.parents` membership or equality. -/

/-- An absolute, possibly unnormalised path as a component list. -/
abbrev CPath := List String

/-- One step of path normalisation: `.` is dropped, `..` removes the last
component (staying at the root when already there). -/
def normStep (acc : List String) (c : String) : List String :=
  if c = "." then acc else if c = ".." then acc.dropLast else acc ++ [c]

/-- `Path.resolve()` without symlinks: normalise the component list. -/
def resolvePath (p : CPath) : CPath :=
  p.foldl normStep []

/-- A zip member name. -/
structure ZMember where
  isAbs : Bool
  comps : List String
deriving DecidableEq

/-- `(out_dir / info.filename).resolve()`. -/
def memberTarget (outDir : CPath) (m : ZMember) : CPath :=
  resolvePath (if m.isAbs then m.comps else outDir ++ m.comps)

/-- `out_dir_resolved in target.parents or target == out_dir_resolved`:
the resolved destination is a (not necessarily strict) component prefix
of the target. -/
def insideDest (outDirResolved target : CPath) : Bool :=
  outDirResolved.isPrefixOf target

/-- The archive as the extractor sees it: `none` when `ZipFile` raises
`BadZipFile`, otherwise the ordered member list. -/
abbrev ZArchive := Option (List ZMember)

/-- Extraction errors, mirroring the two distinct `RuntimeError`s. -/
inductive ZipError where
  | zipSlip (m : ZMember)
  | corrupt
deriving DecidableEq

/-- The extraction-side file system: the set of written target paths with
the member that produced each. -/
abbrev ZFS := List (CPath × ZMember)

/-- The pre-extraction scan of lines 274-278: walk every member, resolve
its target, and fail at the first member escaping the destination;
otherwise return all targets in order.  No file is written here. -/
def scanMembers (outDirResolved : CPath) (outDir : CPath) :
    List ZMember → Except ZipError (List CPath)
  | [] => .ok []
  | m :: rest =>
      let target := memberTarget outDir m
      if !insideDest outDirResolved target then .error (.zipSlip m)
      else
        match scanMembers outDirResolved outDir rest with
        | .error e => .error e
        | .ok ts => .ok (target :: ts)

/-- `zf.extractall(out_dir)`: write every member. -/
def extractAllMembers (outDir : CPath) (members : List ZMember) (fs : ZFS) : ZFS :=
  members.foldl (fun acc m => (memberTarget outDir m, m) :: acc) fs

/-- `_safe_extract_zip` as a state transition over `ZFS`: open the
archive, scan every member before any write, then extract all members and
return the resolved target list. -/
def safeExtractZip (archive : ZArchive) (outDir : CPath) (fs : ZFS) :
    Except ZipError (List CPath) × ZFS :=
  match archive with
  | none => (.error .corrupt, fs)
  | some members =>
      match scanMembers (resolvePath outDir) outDir members with
      | .error e => (.error e, fs)
      | .ok targets => (.ok targets, extractAllMembers outDir members fs)

/-! ## Batch orchestration (`fetch_bdtopo_occupation_layers_shapefiles`,
lines 89-129)

The per-candidate download and the augmenter are abstracted into oracles:
`download` maps a resolved type-name candidate to the produced `.shp`
path or the message of the `RuntimeError` the download raises after
candidate-format exhaustion; `augment` maps the `.shp` path and the
classification code to the outcome of `_set_code_lu_field`, whose
exceptions the orchestrator catches wholesale. -/

/-- A successful layer outcome (`result_layers[layer_key]`). -/
structure LayerSuccess where
  typename : String
  code_lu : Int
  shp_path : String
deriving DecidableEq

/-- A skipped layer outcome (`skipped_layers[layer_key]`). -/
structure LayerSkip where
  typename : String
  reason : String
deriving DecidableEq

/-- The candidate loop of lines 97-113: try each resolved candidate,
remembering the message of the last `RuntimeError`; return the first
successful `(candidate, shp_path)` pair, or the last diagnostic. -/
def tryCandidates (download : String → Except String String) :
    List String → String → (String × String) ⊕ String
  | [], lastError => .inr lastError
  | cand :: rest, lastError =>
      match download cand with
      | .ok shpPath => .inl (cand, shpPath)
      | .error e => tryCandidates download rest e

/-- Process one layer (lines 92-127): resolve candidates, download with
fallback, then augment; every failure becomes a `LayerSkip`. -/
def processLayer (download : String → Except String String)
    (augment : String → Int → Except String Unit)
    (availableTypenames : List String) (typename : String) (code : Int) :
    LayerSuccess ⊕ LayerSkip :=
  match tryCandidates download (resolveTypenameCandidates typename availableTypenames) "" with
  | .inr lastError =>
      .inr ⟨typename, if lastError = "" then "Layer introuvable" else lastError⟩
  | .inl (cand, shpPath) =>
      match augment shpPath code with
      | .ok _ => .inl ⟨cand, code, shpPath⟩
      | .error e => .inr ⟨cand, "Erreur lors de l\u0027ajout du CODE_LU : " ++ e⟩

/-- The classification code for a layer key:
`selected_codes.get(layer_key, 0)`. -/
def codeFor (codes : List (String × Int)) (layerKey : String) : Int :=
  (codes.lookup layerKey).getD 0

/-- The batch loop of lines 89-129: process every requested
`(layer_key, typename)` pair in order, accumulating the success and
skipped maps. -/
def runBatch (download : String → Except String String)
    (augment : String → Int → Except String Unit)
    (availableTypenames : List String) (codes : List (String × Int)) :
    List (String × String) →
      List (String × LayerSuccess) × List (String × LayerSkip)
  | [] => ([], [])
  | (layerKey, typename) :: rest =>
      let (res, skip) := runBatch download augment availableTypenames codes rest
      match processLayer download augment availableTypenames typename
          (codeFor codes layerKey) with
      | .inl s => ((layerKey, s) :: res, skip)
      | .inr k => (res, (layerKey, k) :: skip)

/-- Whether a request fails (lands in the skipped map). -/
def layerFails (download : String → Except String String)
    (augment : String → Int → Except String Unit)
    (availableTypenames : List String) (codes : List (String × Int))
    (req : String × String) : Bool :=
  match processLayer download augment availableTypenames req.2 (codeFor codes req.1) with
  | .inl _ => false
  | .inr _ => true

/-! ## Envelope extraction (`mtn.py`: `_validate_epsg_2154`, `get_emprise`)

The parsed JSON document is embedded as an inductive value.  Numeric
leaves are embedded as integers: no claim depends on non-integral
coordinates, and the min/max/buffer arithmetic is identical. -/

/-- A parsed JSON value. -/
inductive JVal where
  | jnull
  | jbool (b : Bool)
  | jnum (n : Int)
  | jstr (s : String)
  | jarr (elems : List JVal)
  | jobj (fields : List (String × JVal))

/-- Python `dict.get`: `none` when the receiver is not a dict or lacks
the key. -/
def jget (v : JVal) (key : String) : Option JVal :=
  match v with
  | .jobj fields => fields.lookup key
  | _ => none

/-- Whether the value is a dict (`isinstance(x, dict)`). -/
def JVal.isObj : JVal → Bool
  | .jobj _ => true
  | _ => false

mutual

/-- Python `repr` of a JSON-shaped value (string escaping inside
containers is simplified to bare quoting; no claim depends on it). -/
def pyRepr : JVal → String
  | .jnull => "None"
  | .jbool true => "True"
  | .jbool false => "False"
  | .jnum n => toString n
  | .jstr s => String.singleton (Char.ofNat 39) ++ s ++ String.singleton (Char.ofNat 39)
  | .jarr elems => "[" ++ String.intercalate ", " (pyReprList elems) ++ "]"
  | .jobj fields => "\x7b" ++ String.intercalate ", " (pyReprFields fields) ++ "\x7d"

/-- `repr` of each element of a list. -/
def pyReprList : List JVal → List String
  | [] => []
  | v :: rest => pyRepr v :: pyReprList rest

/-- `repr` of each binding of a dict. -/
def pyReprFields : List (String × JVal) → List String
  | [] => []
  | (k, v) :: rest =>
      (String.singleton (Char.ofNat 39) ++ k ++ String.singleton (Char.ofNat 39) ++ ": "
        ++ pyRepr v) :: pyReprFields rest

end

/-- Python `str`: identity on strings, `repr` otherwise. -/
def pyStr : JVal → String
  | .jstr s => s
  | v => pyRepr v

/-- The stripped CRS declaration name `_validate_epsg_2154` examines:
`none` when `crs` or `crs.properties` is missing or not a dict (the
function returns without checking anything). -/
def crsDeclName (payload : JVal) : Option String :=
  match jget payload "crs" with
  | some (.jobj crsFields) =>
      match jget (.jobj crsFields) "properties" with
      | some (.jobj propFields) =>
          some (pyTrim (pyStr ((jget (.jobj propFields) "name").getD (.jstr ""))))
      | _ => none
  | _ => none

/-- The errors `get_emprise` can raise, one constructor per distinct
`ValueError`. -/
inductive EmpriseError where
  | notGeoJsonObject
  | crsMismatch (name : String)
  | noCoords
  | negBuffer
deriving DecidableEq

/-- `_validate_epsg_2154`: raise when a declared, nonempty CRS name does
not contain "2154"; return silently otherwise. -/
def validateEpsg2154 (payload : JVal) : Except EmpriseError Unit :=
  match crsDeclName payload with
  | none => .ok ()
  | some name =>
      if name ≠ "" ∧ strContains name "2154" = false then .error (.crsMismatch name)
      else .ok ()

mutual

/-- `_iter_points`: recursively descend coordinate arrays; a leaf is a
list whose first two elements are numeric; non-lists and empty lists
contribute nothing. -/
def iterPoints : JVal → List (Int × Int)
  | .jarr [] => []
  | .jarr (a :: rest) =>
      match a, rest with
      | .jnum x, .jnum y :: _ => [(x, y)]
      | _, _ => iterPointsList (a :: rest)
  | _ => []

/-- `_iter_points` mapped over the items of a coordinate array. -/
def iterPointsList : List JVal → List (Int × Int)
  | [] => []
  | v :: rest => iterPoints v ++ iterPointsList rest

end

/-- Python `payload.get("type") == tag` for a string tag. -/
def hasTypeTag (payload : JVal) (tag : String) : Bool :=
  match jget payload "type" with
  | some (.jstr s) => s == tag
  | _ => false

/-- `_iter_geometries`: yield geometries from
FeatureCollection / Feature / bare geometry. -/
def iterGeometries (payload : JVal) : List JVal :=
  if hasTypeTag payload "FeatureCollection" then
    match (jget payload "features").getD (.jarr []) with
    | .jarr features =>
        features.filterMap (fun f =>
          if f.isObj then
            match jget f "geometry" with
            | some g => if g.isObj then some g else none
            | none => none
          else none)
    | _ => []
  else if hasTypeTag payload "Feature" then
    match jget payload "geometry" with
    | some g => if g.isObj then [g] else []
    | none => []
  else
    match jget payload "coordinates" with
    | some (.jarr _) => [payload]
    | _ => []

/-- The planar envelope. -/
structure Envelope where
  xmin : Int
  ymin : Int
  xmax : Int
  ymax : Int
deriving DecidableEq

/-- All coordinate pairs of the document, in traversal order. -/
def allPoints (payload : JVal) : List (Int × Int) :=
  (iterGeometries payload).flatMap (fun g =>
    match jget g "coordinates" with
    | some coords => iterPoints coords
    | none => [])

/-- Running min/max accumulation over the coordinate stream. -/
def foldEnvelope (pts : List (Int × Int)) : Option Envelope :=
  pts.foldl (fun acc (p : Int × Int) =>
    match acc with
    | none => some ⟨p.1, p.2, p.1, p.2⟩
    | some e => some ⟨min e.xmin p.1, min e.ymin p.2, max e.xmax p.1, max e.ymax p.2⟩)
    none

/-- `get_emprise` on an already-parsed document: object check, CRS
validation, coordinate accumulation, buffer check, buffer expansion. -/
def getEmprise (payload : JVal) (buffer : Int) : Except EmpriseError Envelope :=
  if !payload.isObj then .error .notGeoJsonObject
  else
    match validateEpsg2154 payload with
    | .error e => .error e
    | .ok _ =>
        match foldEnvelope (allPoints payload) with
        | none => .error .noCoords
        | some e =>
            if buffer < 0 then .error .negBuffer
            else .ok ⟨e.xmin - buffer, e.ymin - buffer, e.xmax + buffer, e.ymax + buffer⟩

/-- Spec-side reading (for comparison with the code): an embedded
coordinate-system declaration "matches the expected planar CRS
(EPSG:2154)" when it names exactly that identifier. -/
def specCrsMatches (name : String) : Prop :=
  name = "EPSG:2154"

/-- Whether one candidate-format attempt of the fetch loop fails. -/
def attemptFails (net : String → NetResult) (extract : String → ExtractOutcome)
    (typename fmt : String) : Bool :=
  (attemptDiag net extract typename fmt).isSome

instance {ε α : Type} [DecidableEq ε] [DecidableEq α] : DecidableEq (Except ε α)
  | .error x, .error y =>
      decidable_of_iff (x = y) ⟨fun h => by rw [h], fun h => by injection h⟩
  | .ok x, .ok y =>
      decidable_of_iff (x = y) ⟨fun h => by rw [h], fun h => by injection h⟩
  | .error _, .ok _ => .isFalse (fun h => Except.noConfusion h)
  | .ok _, .error _ => .isFalse (fun h => Except.noConfusion h)

/-! # Theorems

General lemmas first, then one theorem per claim (with its witness or
counterexample). -/

/-- The `dict.fromkeys` fold with explicit accumulator equals `dedupAcc`. -/
theorem foldl_dedup_eq_dedupAcc (l : List String) :
    ∀ acc : List String,
      l.foldl (fun acc x => if x ∈ acc then acc else acc ++ [x]) acc = acc ++ dedupAcc acc l := by
  induction l with
  | nil => intro acc; simp [dedupAcc]
  | cons x xs ih =>
      intro acc
      by_cases hx : x ∈ acc
      · simp [List.foldl_cons, hx, dedupAcc, ih]
      · simp [List.foldl_cons, hx, dedupAcc, ih (acc ++ [x])]

/-- `pyDedup` is `dedupAcc` started from the empty seen-set. -/
theorem pyDedup_eq_dedupAcc (l : List String) : pyDedup l = dedupAcc [] l := by
  simpa using foldl_dedup_eq_dedupAcc l []

/-- Membership in `dedupAcc`. -/
theorem mem_dedupAcc {y : String} :
    ∀ {l seen : List String}, y ∈ dedupAcc seen l ↔ y ∈ l ∧ y ∉ seen := by
  intro l
  induction l with
  | nil => intro seen; simp [dedupAcc]
  | cons x xs ih =>
      intro seen
      by_cases hx : x ∈ seen
      · simp only [dedupAcc, if_pos hx, ih, List.mem_cons]
        constructor
        · rintro ⟨h1, h2⟩; exact ⟨Or.inr h1, h2⟩
        · rintro ⟨h1 | h1, h2⟩
          · exact absurd (h1 ▸ hx) h2
          · exact ⟨h1, h2⟩
      · simp only [dedupAcc, if_neg hx, List.mem_cons, ih]
        constructor
        · rintro (rfl | ⟨h1, h2⟩)
          · exact ⟨Or.inl rfl, hx⟩
          · refine ⟨Or.inr h1, fun hc => h2 ?_⟩
            simp [hc]
        · rintro ⟨rfl | h1, h2⟩
          · exact Or.inl rfl
          · by_cases hyx : y = x
            · exact Or.inl hyx
            · exact Or.inr ⟨h1, by simp [h2, hyx]⟩

/-- `dedupAcc` has no duplicates. -/
theorem nodup_dedupAcc : ∀ (l seen : List String), (dedupAcc seen l).Nodup := by
  intro l
  induction l with
  | nil => intro seen; simp [dedupAcc]
  | cons x xs ih =>
      intro seen
      by_cases hx : x ∈ seen
      · simpa [dedupAcc, hx] using ih seen
      · simp only [dedupAcc, if_neg hx, List.nodup_cons]
        refine ⟨fun hc => ?_, ih (seen ++ [x])⟩
        exact (mem_dedupAcc.mp hc).2 (by simp)

/-- `pyDedup` has no duplicates. -/
theorem nodup_pyDedup (l : List String) : (pyDedup l).Nodup := by
  rw [pyDedup_eq_dedupAcc]; exact nodup_dedupAcc l []

/-- `pyDedup` keeps exactly the elements of its input. -/
theorem mem_pyDedup {y : String} {l : List String} : y ∈ pyDedup l ↔ y ∈ l := by
  rw [pyDedup_eq_dedupAcc, mem_dedupAcc]; simp

/-- `dedupAcc` preserves first-occurrence order: the relative order of
two retained tokens matches the relative order of their first
occurrences in the input. -/
theorem indexOf_dedupAcc_mono {x y : String} :
    ∀ {l seen : List String}, x ∈ dedupAcc seen l → y ∈ dedupAcc seen l →
      (dedupAcc seen l).indexOf x < (dedupAcc seen l).indexOf y →
      l.indexOf x < l.indexOf y := by
  intro l
  induction l with
  | nil => intro seen hx; simp [dedupAcc] at hx
  | cons a xs ih =>
      intro seen hx hy hlt
      by_cases ha : a ∈ seen
      · rw [dedupAcc, if_pos ha] at hx hy hlt
        have hxa : a ≠ x := fun h => (mem_dedupAcc.mp hx).2 (h ▸ ha)
        have hya : a ≠ y := fun h => (mem_dedupAcc.mp hy).2 (h ▸ ha)
        rw [List.indexOf_cons_ne _ hxa, List.indexOf_cons_ne _ hya]
        exact Nat.succ_lt_succ (ih hx hy hlt)
      · rw [dedupAcc, if_neg ha] at hx hy hlt
        by_cases hxa : x = a
        · subst hxa
          have hya : x ≠ y := by
            rintro rfl
            simp at hlt
          rw [List.indexOf_cons_self, List.indexOf_cons_ne _ hya]
          exact Nat.succ_pos _
        · have hx' : x ∈ dedupAcc (seen ++ [a]) xs := by
            rcases List.mem_cons.mp hx with h | h
            · exact absurd h hxa
            · exact h
          have hlt0 : 0 < (a :: dedupAcc (seen ++ [a]) xs).indexOf y := by
            calc 0 ≤ (a :: dedupAcc (seen ++ [a]) xs).indexOf x := Nat.zero_le _
            _ < _ := hlt
          have hya : y ≠ a := by
            rintro rfl
            simp at hlt0
          have hy' : y ∈ dedupAcc (seen ++ [a]) xs := by
            rcases List.mem_cons.mp hy with h | h
            · exact absurd h hya
            · exact h
          rw [List.indexOf_cons_ne _ (Ne.symm hxa), List.indexOf_cons_ne _ (Ne.symm hya)]
            at hlt
          have := ih hx' hy' (Nat.lt_of_succ_lt_succ hlt)
          rw [List.indexOf_cons_ne _ (Ne.symm hxa), List.indexOf_cons_ne _ (Ne.symm hya)]
          exact Nat.succ_lt_succ this

/-- `pyDedup` preserves first-occurrence order. -/
theorem indexOf_pyDedup_mono {x y : String} {l : List String}
    (hx : x ∈ pyDedup l) (hy : y ∈ pyDedup l)
    (hlt : (pyDedup l).indexOf x < (pyDedup l).indexOf y) :
    l.indexOf x < l.indexOf y := by
  rw [pyDedup_eq_dedupAcc] at hx hy hlt
  exact indexOf_dedupAcc_mono hx hy hlt

/-- C4 counterexample: the deduplication of the capabilities probe is by
exact string identity (`dict.fromkeys`), not case-insensitive.  A
document advertising "SHAPE-ZIP" and "shape-zip" yields both tokens, two
entries of the returned list that are equal up to case, refuting the
claimed case-insensitive deduplication. -/
theorem c4_counterexample :
    getWfsOutputFormats [⟨"Value", some "SHAPE-ZIP"⟩, ⟨"Value", some "shape-zip"⟩]
        = ["SHAPE-ZIP", "shape-zip"] ∧
      pyLower "SHAPE-ZIP" = pyLower "shape-zip" ∧ "SHAPE-ZIP" ≠ "shape-zip" := by
  decide

/-- C4 (amended): the output-format token list and the type-name list are
each deduplicated by exact string identity (case-sensitively) while
preserving first-seen order: no two returned tokens are equal as strings,
the returned tokens are exactly the extracted tokens, and the relative
order of any two returned tokens matches the relative order of their
first occurrences in the document. -/
theorem c4_dedup_first_seen (doc : List XElem) :
    ((getWfsOutputFormats doc).Nodup ∧
      (∀ x, x ∈ getWfsOutputFormats doc ↔ x ∈ outputFormatTokens doc) ∧
      (∀ x y, x ∈ getWfsOutputFormats doc → y ∈ getWfsOutputFormats doc →
        (getWfsOutputFormats doc).indexOf x < (getWfsOutputFormats doc).indexOf y →
        (outputFormatTokens doc).indexOf x < (outputFormatTokens doc).indexOf y)) ∧
    ((getWfsFeatureTypeNames doc).Nodup ∧
      (∀ x, x ∈ getWfsFeatureTypeNames doc ↔ x ∈ typeNameTokens doc) ∧
      (∀ x y, x ∈ getWfsFeatureTypeNames doc → y ∈ getWfsFeatureTypeNames doc →
        (getWfsFeatureTypeNames doc).indexOf x < (getWfsFeatureTypeNames doc).indexOf y →
        (typeNameTokens doc).indexOf x < (typeNameTokens doc).indexOf y)) :=
  ⟨⟨nodup_pyDedup _, fun _ => mem_pyDedup,
      fun _ _ hx hy h => indexOf_pyDedup_mono hx hy h⟩,
    ⟨nodup_pyDedup _, fun _ => mem_pyDedup,
      fun _ _ hx hy h => indexOf_pyDedup_mono hx hy h⟩⟩

/-- C4 witness: the amended theorem applied to a concrete document. -/
theorem c4_dedup_first_seen_witness :
    (outputFormatTokens [⟨"Value", some "a"⟩, ⟨"Value", some "b"⟩, ⟨"Value", some "a"⟩]).indexOf "a"
      < (outputFormatTokens [⟨"Value", some "a"⟩, ⟨"Value", some "b"⟩, ⟨"Value", some "a"⟩]).indexOf "b" :=
  (c4_dedup_first_seen
      [⟨"Value", some "a"⟩, ⟨"Value", some "b"⟩, ⟨"Value", some "a"⟩]).1.2.2
    "a" "b" (by decide) (by decide) (by decide)

/-- C5 counterexample: the fixed fallback list itself contains the
case-insensitive duplicates "shape-zip" and "SHAPE-ZIP"; with no
advertised format, the negotiated candidate list is exactly the fallback
list and therefore contains two tokens equal up to case, refuting the
claimed absence of case-insensitive duplicates. -/
theorem c5_counterexample :
    candidateFormats [] = ["shapezip", "shape-zip", "application/zip", "SHAPE-ZIP", "zip"] ∧
      pyLower "shape-zip" = pyLower "SHAPE-ZIP" ∧ "shape-zip" ≠ "SHAPE-ZIP" := by
  decide

/-- C5 (amended): in the negotiated candidate list, every token outside
the advertised shape-like segment is a fallback token whose lowering
differs from the lowering of every advertised shape-like token (the two
segments share no token up to case), every advertised shape-like token
is present, and every advertised shape-like token precedes every token
retained from the fallback list. -/
theorem c5_segment_order (declared : List String) :
    (∀ y ∈ candidateFormats declared, y ∉ preferredShapeLike declared →
      y ∈ fallbackFormats ∧ pyLower y ∉ (preferredShapeLike declared).map pyLower) ∧
    (∀ x ∈ preferredShapeLike declared, x ∈ candidateFormats declared) ∧
    (∀ x ∈ preferredShapeLike declared, ∀ y ∈ candidateFormats declared,
      pyLower y ∉ (preferredShapeLike declared).map pyLower →
      (candidateFormats declared).indexOf x < (candidateFormats declared).indexOf y) := by
  have hout : candidateFormats declared = preferredShapeLike declared ++
      fallbackFormats.filter
        (fun fmt => !(((preferredShapeLike declared).map pyLower).contains (pyLower fmt))) := rfl
  refine ⟨?_, ?_, ?_⟩
  · intro y hy hynp
    rw [hout] at hy
    rcases List.mem_append.mp hy with h | h
    · exact absurd h hynp
    · have hf := List.mem_filter.mp h
      refine ⟨hf.1, ?_⟩
      intro hc
      have hcontains : ((preferredShapeLike declared).map pyLower).contains (pyLower y) = true :=
        List.elem_eq_true_of_mem hc
      have hf2 := hf.2
      rw [hcontains] at hf2
      simp at hf2
  · intro x hx
    rw [hout]
    exact List.mem_append.mpr (Or.inl hx)
  · intro x hx y hy hyl
    have hynp : y ∉ preferredShapeLike declared := by
      intro hc
      exact hyl (List.mem_map.mpr ⟨y, hc, rfl⟩)
    rw [hout]
    rw [List.indexOf_append_of_mem hx, List.indexOf_append_of_not_mem hynp]
    calc List.indexOf x (preferredShapeLike declared)
        < (preferredShapeLike declared).length := List.indexOf_lt_length.mpr hx
      _ ≤ (preferredShapeLike declared).length + _ := Nat.le_add_right _ _

/-- C5 witness: the amended theorem applied to a concrete advertised
list. -/
theorem c5_segment_order_witness :
    (candidateFormats ["SHAPE-ZIP", "text/xml"]).indexOf "SHAPE-ZIP"
      < (candidateFormats ["SHAPE-ZIP", "text/xml"]).indexOf "application/zip" :=
  (c5_segment_order ["SHAPE-ZIP", "text/xml"]).2.2
    "SHAPE-ZIP" (by decide) "application/zip" (by decide) (by decide)

/-- Membership in `addCandidate`. -/
theorem mem_addCandidate {n a : String} {cs : List String} :
    n ∈ addCandidate cs a ↔ n ∈ cs ∨ n = a := by
  unfold addCandidate
  by_cases h : a ∈ cs
  · simp only [if_pos h]
    constructor
    · exact Or.inl
    · rintro (hn | rfl)
      · exact hn
      · exact h
  · simp [if_neg h]

/-- `scanPass` only appends: the input candidates form a prefix and every
appended element satisfies the pass predicate and is advertised. -/
theorem scanPass_append_form (p : String → Bool) (avail : List String) :
    ∀ cs, ∃ δ, scanPass p avail cs = cs ++ δ ∧ ∀ n ∈ δ, p n = true ∧ n ∈ avail := by
  induction avail with
  | nil => intro cs; exact ⟨[], by simp [scanPass], by simp⟩
  | cons a rest ih =>
      intro cs
      have hstep : scanPass p (a :: rest) cs
          = scanPass p rest (if p a then addCandidate cs a else cs) := rfl
      by_cases hpa : p a = true
      · rw [hstep, if_pos hpa]
        by_cases hmem : a ∈ cs
        · have : addCandidate cs a = cs := by simp [addCandidate, hmem]
          rw [this]
          obtain ⟨δ, h1, h2⟩ := ih cs
          exact ⟨δ, h1, fun n hn => ⟨(h2 n hn).1, List.mem_cons_of_mem _ (h2 n hn).2⟩⟩
        · have : addCandidate cs a = cs ++ [a] := by simp [addCandidate, hmem]
          rw [this]
          obtain ⟨δ, h1, h2⟩ := ih (cs ++ [a])
          refine ⟨a :: δ, by simpa using h1, ?_⟩
          intro n hn
          rcases List.mem_cons.mp hn with rfl | hn
          · exact ⟨hpa, List.mem_cons_self _ _⟩
          · exact ⟨(h2 n hn).1, List.mem_cons_of_mem _ (h2 n hn).2⟩
      · rw [hstep, if_neg hpa]
        obtain ⟨δ, h1, h2⟩ := ih cs
        exact ⟨δ, h1, fun n hn => ⟨(h2 n hn).1, List.mem_cons_of_mem _ (h2 n hn).2⟩⟩

/-- Membership in `scanPass`. -/
theorem mem_scanPass {n : String} {p : String → Bool} :
    ∀ {avail cs : List String},
      n ∈ scanPass p avail cs ↔ n ∈ cs ∨ (n ∈ avail ∧ p n = true) := by
  intro avail
  induction avail with
  | nil => intro cs; simp [scanPass]
  | cons a rest ih =>
      intro cs
      have hstep : scanPass p (a :: rest) cs
          = scanPass p rest (if p a then addCandidate cs a else cs) := rfl
      by_cases hpa : p a = true
      · rw [hstep, if_pos hpa, ih]
        rw [mem_addCandidate]
        constructor
        · rintro ((hn | rfl) | ⟨h1, h2⟩)
          · exact Or.inl hn
          · exact Or.inr ⟨List.mem_cons_self _ _, hpa⟩
          · exact Or.inr ⟨List.mem_cons_of_mem _ h1, h2⟩
        · rintro (hn | ⟨h1, h2⟩)
          · exact Or.inl (Or.inl hn)
          · rcases List.mem_cons.mp h1 with rfl | h1
            · exact Or.inl (Or.inr rfl)
            · exact Or.inr ⟨h1, h2⟩
      · rw [hstep, if_neg hpa, ih]
        constructor
        · rintro (hn | ⟨h1, h2⟩)
          · exact Or.inl hn
          · exact Or.inr ⟨List.mem_cons_of_mem _ h1, h2⟩
        · rintro (hn | ⟨h1, h2⟩)
          · exact Or.inl hn
          · rcases List.mem_cons.mp h1 with rfl | h1
            · exact absurd h2 hpa
            · exact Or.inr ⟨h1, h2⟩

/-- Unfolding of the resolver on a nonempty advertised list. -/
theorem resolve_eq_of_ne_empty (typename : String) {avail : List String}
    (h : avail.isEmpty = false) :
    resolveTypenameCandidates typename avail =
      scanPass (substrMatch (pyLower (pyTrim typename))) avail
        (if pyContainsChar (pyTrim typename) ':' = true
          then scanPass (exactMatch (pyLower (pyTrim typename))) avail [pyTrim typename]
          else scanPass (localPartMatch (pyLower (pyTrim typename))) avail
            (scanPass (exactMatch (pyLower (pyTrim typename))) avail [pyTrim typename])) := by
  simp only [resolveTypenameCandidates, h, Bool.false_eq_true, if_false]

/-- C7: in the resolver's candidate list the desired (trimmed) identifier
comes first, every advertised exact case-insensitive match is present,
and every exact-match candidate strictly precedes every candidate that is
neither the desired identifier, nor an exact match, nor eligible through
the local-part rule — i.e. every candidate contributed only by the
substring rule. -/
theorem c7_resolver_precedence (typename : String) (avail : List String) :
    (resolveTypenameCandidates typename avail).head? = some (pyTrim typename) ∧
    (∀ n ∈ avail, exactMatch (pyLower (pyTrim typename)) n = true →
      n ∈ resolveTypenameCandidates typename avail) ∧
    (∀ y x, y ∈ resolveTypenameCandidates typename avail →
      exactMatch (pyLower (pyTrim typename)) y = true →
      x ∈ resolveTypenameCandidates typename avail →
      x ≠ pyTrim typename →
      exactMatch (pyLower (pyTrim typename)) x = false →
      (pyContainsChar (pyTrim typename) ':' = false →
        localPartMatch (pyLower (pyTrim typename)) x = false) →
      (resolveTypenameCandidates typename avail).indexOf y
        < (resolveTypenameCandidates typename avail).indexOf x) := by
  by_cases hav : avail.isEmpty = true
  · have hnil : avail = [] := List.isEmpty_iff.mp hav
    subst hnil
    have hout : resolveTypenameCandidates typename [] = [pyTrim typename] := by
      simp [resolveTypenameCandidates]
    refine ⟨by simp [hout], by simp, ?_⟩
    intro y x _ _ hx hxb _ _
    rw [hout] at hx
    exact absurd (List.mem_singleton.mp hx) hxb
  · have hav' : avail.isEmpty = false := by
      cases h : avail.isEmpty
      · rfl
      · exact absurd h hav
    have hout := resolve_eq_of_ne_empty typename hav'
    obtain ⟨δ2, h2eq, h2prop⟩ :=
      scanPass_append_form (exactMatch (pyLower (pyTrim typename))) avail [pyTrim typename]
    -- the second pass's result, by cases on the namespace separator
    have hc3 : ∃ δ3,
        (if pyContainsChar (pyTrim typename) ':' = true
          then scanPass (exactMatch (pyLower (pyTrim typename))) avail [pyTrim typename]
          else scanPass (localPartMatch (pyLower (pyTrim typename))) avail
            (scanPass (exactMatch (pyLower (pyTrim typename))) avail [pyTrim typename]))
          = scanPass (exactMatch (pyLower (pyTrim typename))) avail [pyTrim typename] ++ δ3 ∧
        ∀ n ∈ δ3, localPartMatch (pyLower (pyTrim typename)) n = true ∧ n ∈ avail := by
      by_cases hns : pyContainsChar (pyTrim typename) ':' = true
      · exact ⟨[], by simp [hns], by simp⟩
      · obtain ⟨δ3, h3eq, h3prop⟩ :=
          scanPass_append_form (localPartMatch (pyLower (pyTrim typename))) avail
            (scanPass (exactMatch (pyLower (pyTrim typename))) avail [pyTrim typename])
        exact ⟨δ3, by simp [hns, h3eq], h3prop⟩
    obtain ⟨δ3, h3eq, h3prop⟩ := hc3
    obtain ⟨δ4, h4eq, h4prop⟩ :=
      scanPass_append_form (substrMatch (pyLower (pyTrim typename))) avail
        (if pyContainsChar (pyTrim typename) ':' = true
          then scanPass (exactMatch (pyLower (pyTrim typename))) avail [pyTrim typename]
          else scanPass (localPartMatch (pyLower (pyTrim typename))) avail
            (scanPass (exactMatch (pyLower (pyTrim typename))) avail [pyTrim typename]))
    refine ⟨?_, ?_, ?_⟩
    · rw [hout, h4eq, h3eq, h2eq]
      simp
    · intro n hn hexact
      rw [hout, mem_scanPass, h3eq]
      exact Or.inl (List.mem_append.mpr (Or.inl (mem_scanPass.mpr (Or.inr ⟨hn, hexact⟩))))
    · intro y x hy hyexact hx hxb hxexact hxlocal
      rw [hout] at hy hx
      -- the exact-match candidate sits in the exact-pass segment
      have hyc2 : y ∈ scanPass (exactMatch (pyLower (pyTrim typename))) avail [pyTrim typename] := by
        rcases mem_scanPass.mp hy with hy3 | ⟨hyav, _⟩
        · rw [h3eq] at hy3
          rcases List.mem_append.mp hy3 with hy2 | hyδ3
          · exact hy2
          · exact mem_scanPass.mpr (Or.inr ⟨(h3prop y hyδ3).2, hyexact⟩)
        · exact mem_scanPass.mpr (Or.inr ⟨hyav, hyexact⟩)
      -- the substring-only candidate is outside the first two segments
      have hxc3 : x ∉ scanPass (exactMatch (pyLower (pyTrim typename))) avail [pyTrim typename] ++ δ3 := by
        intro hc
        rcases List.mem_append.mp hc with hc2 | hcδ3
        · rcases mem_scanPass.mp hc2 with hcb | ⟨_, hcx⟩
          · exact hxb (List.mem_singleton.mp hcb)
          · rw [hxexact] at hcx
            exact Bool.false_ne_true hcx
        · have hlp := (h3prop x hcδ3).1
          by_cases hns : pyContainsChar (pyTrim typename) ':' = true
          · rw [if_pos hns] at h3eq
            have hδ3 : δ3 = [] := by
              have hlen := congrArg List.length h3eq
              rw [List.length_append] at hlen
              have hz : δ3.length = 0 := by omega
              exact List.eq_nil_of_length_eq_zero hz
            rw [hδ3] at hcδ3
            exact absurd hcδ3 (List.not_mem_nil x)
          · have hns' : pyContainsChar (pyTrim typename) ':' = false := by
              cases h : pyContainsChar (pyTrim typename) ':'
              · rfl
              · exact absurd h hns
            rw [hxlocal hns'] at hlp
            exact Bool.false_ne_true hlp
      rw [hout, h4eq, h3eq]
      rw [List.indexOf_append_of_mem (List.mem_append.mpr (Or.inl hyc2)),
        List.indexOf_append_of_mem hyc2,
        List.indexOf_append_of_not_mem hxc3]
      calc List.indexOf y (scanPass (exactMatch (pyLower (pyTrim typename))) avail [pyTrim typename])
          < (scanPass (exactMatch (pyLower (pyTrim typename))) avail [pyTrim typename]).length :=
            List.indexOf_lt_length.mpr hyc2
        _ ≤ (scanPass (exactMatch (pyLower (pyTrim typename))) avail [pyTrim typename] ++ δ3).length := by
            simp
        _ ≤ _ := Nat.le_add_right _ _

/-- C7 witness: on `("foo", ["ns:FOO", "other:bar"])` the resolver yields
exactly `["foo", "ns:FOO"]`, and on a concrete input with a
substring-only candidate the precedence theorem applies. -/
theorem c7_resolver_precedence_witness :
    resolveTypenameCandidates "foo" ["ns:FOO", "other:bar"] = ["foo", "ns:FOO"] ∧
    (resolveTypenameCandidates "bat" ["ns:BAT", "x:abaty"]).indexOf "bat"
      < (resolveTypenameCandidates "bat" ["ns:BAT", "x:abaty"]).indexOf "x:abaty" :=
  ⟨by decide,
    (c7_resolver_precedence "bat" ["ns:BAT", "x:abaty"]).2.2 "bat" "x:abaty"
      (by decide) (by decide) (by decide) (by decide) (by decide) (by decide)⟩

/-- A silent attempt (no diagnostic) can only be a successful extraction
with at least one geometry file. -/
theorem attemptDiag_eq_none {net : String → NetResult} {extract : String → ExtractOutcome}
    {typename fmt : String} (h : attemptDiag net extract typename fmt = none) :
    ∃ p ps, extract fmt = .ok (p :: ps) := by
  unfold attemptDiag at h
  split at h
  · exact absurd h (by simp)
  · split at h
    · exact absurd h (by simp)
    · split at h
      · exact absurd h (by simp)
      · split at h
        · exact absurd h (by simp)
        · next shpFiles hext =>
            split at h
            · exact absurd h (by simp)
            · next hne =>
                cases shpFiles with
                | nil => simp at hne
                | cons p ps => exact ⟨p, ps, hext⟩

/-- C8: (i) a 200 response declared or sniffed as a markup/error payload
is never treated as an archive: the loop records the response body as the
diagnostic and advances to the next candidate format; (ii) the loop
raises the exhaustion error only once every candidate format has failed,
and the raised error carries the last diagnostic truncated to 200
characters. -/
theorem c8_error_payload_advances (net : String → NetResult)
    (extract : String → ExtractOutcome) (typename : String) :
    (∀ fmt rest lastError r, net fmt = .resp r → r.status = 200 →
      isErrorPayload r = true →
      downloadLoop net extract typename (fmt :: rest) lastError
        = downloadLoop net extract typename rest r.body) ∧
    (∀ fmts lastError e,
      downloadLoop net extract typename fmts lastError = .error e →
      (∀ fmt ∈ fmts, attemptFails net extract typename fmt = true) ∧
      e = exhaustedError typename (finalDiag net extract typename fmts lastError)) := by
  constructor
  · intro fmt rest lastError r hnet hst hxml
    have hdiag : attemptDiag net extract typename fmt = some r.body := by
      unfold attemptDiag
      rw [hnet]
      simp [hst, hxml]
    rw [downloadLoop, hdiag]
  · intro fmts
    induction fmts with
    | nil =>
        intro lastError e h
        rw [downloadLoop] at h
        refine ⟨by simp, ?_⟩
        injection h with h
        rw [finalDiag]
        exact h.symm
    | cons fmt rest ih =>
        intro lastError e h
        cases hdiag : attemptDiag net extract typename fmt with
        | some d =>
            rw [downloadLoop, hdiag] at h
            obtain ⟨hall, he⟩ := ih d e h
            refine ⟨?_, ?_⟩
            · intro f hf
              rcases List.mem_cons.mp hf with rfl | hf
              · simp [attemptFails, hdiag]
              · exact hall f hf
            · rw [he, finalDiag, hdiag]
        | none =>
            obtain ⟨p, ps, hext⟩ := attemptDiag_eq_none hdiag
            rw [downloadLoop, hdiag, hext] at h
            exact absurd h (by simp)

/-- C8 witness: with every response a markup error document, the first
attempt records the body and advances, every candidate fails, and the
final error is the exhaustion error with the last diagnostic. -/
theorem c8_error_payload_advances_witness :
    (downloadLoop (fun _ => .resp ⟨200, "text/xml", "<?xml err"⟩) (fun _ => .fail "x") "t"
        ["a", "b"] ""
      = downloadLoop (fun _ => .resp ⟨200, "text/xml", "<?xml err"⟩) (fun _ => .fail "x") "t"
        ["b"] "<?xml err") ∧
    ((∀ fmt ∈ ["a", "b"],
        attemptFails (fun _ => .resp ⟨200, "text/xml", "<?xml err"⟩) (fun _ => .fail "x") "t"
          fmt = true) ∧
      exhaustedError "t" "<?xml err"
        = exhaustedError "t"
            (finalDiag (fun _ => .resp ⟨200, "text/xml", "<?xml err"⟩) (fun _ => .fail "x") "t"
              ["a", "b"] "")) :=
  ⟨(c8_error_payload_advances (fun _ => .resp ⟨200, "text/xml", "<?xml err"⟩)
        (fun _ => .fail "x") "t").1 "a" ["b"] "" ⟨200, "text/xml", "<?xml err"⟩
      rfl rfl (by decide),
    (c8_error_payload_advances (fun _ => .resp ⟨200, "text/xml", "<?xml err"⟩)
        (fun _ => .fail "x") "t").2 ["a", "b"] "" (exhaustedError "t" "<?xml err") rfl⟩

/-- Setting the element just past a list, materialised by an appended
singleton, rewrites that singleton. -/
theorem set_append_singleton {α : Type} (l : List α) (x y : α) :
    (l ++ [x]).set l.length y = l ++ [y] := by
  induction l with
  | nil => rfl
  | cons a as ih => simpa using ih

/-- A schema that already has the classification field is left unchanged
by `newFields`. -/
theorem newFields_of_idx_some {fs : List FieldDef} {i : Nat}
    (h : codeLuIdx fs = some i) : newFields fs = fs := by
  unfold newFields
  rw [h]

/-- C6: the attribute transformation is idempotent — a second application
with the same classification code changes nothing (record count, every
field value, every geometry) — and the resulting schema carries exactly
one `CODE_LU` field definition. -/
theorem c6_augment_idempotent (t : Table) (code : Int) (hwf : t.WF)
    (hcount : (t.fields.map FieldDef.name).count "CODE_LU" ≤ 1) :
    setCodeLuTable (setCodeLuTable t code) code = setCodeLuTable t code ∧
    ((setCodeLuTable t code).fields.map FieldDef.name).count "CODE_LU" = 1 := by
  by_cases hmem : "CODE_LU" ∈ t.fields.map FieldDef.name
  · have hidx : codeLuIdx t.fields
        = some ((t.fields.map FieldDef.name).indexOf "CODE_LU") := by
      unfold codeLuIdx
      rw [if_pos hmem]
    have hfields : newFields t.fields = t.fields := newFields_of_idx_some hidx
    constructor
    · unfold setCodeLuTable
      dsimp only
      simp only [hfields, hidx]
      rw [Table.mk.injEq]
      refine ⟨rfl, ?_, rfl⟩
      rw [List.map_map]
      refine List.map_congr_left ?_
      intro r _
      simp only [Function.comp_apply, transformRec, List.set_set]
    · unfold setCodeLuTable
      dsimp only
      rw [hfields]
      have h1 : 1 ≤ (t.fields.map FieldDef.name).count "CODE_LU" :=
        List.count_pos_iff.mpr hmem
      exact Nat.le_antisymm hcount h1
  · have hidx : codeLuIdx t.fields = none := by
      unfold codeLuIdx
      rw [if_neg hmem]
    have hfields : newFields t.fields = t.fields ++ [codeLuFieldDef] := by
      unfold newFields
      rw [hidx]
    have hnames : (newFields t.fields).map FieldDef.name
        = t.fields.map FieldDef.name ++ ["CODE_LU"] := by
      rw [hfields, List.map_append]
      rfl
    have hmem' : "CODE_LU" ∈ (newFields t.fields).map FieldDef.name := by
      rw [hnames]
      exact List.mem_append.mpr (Or.inr (List.mem_singleton.mpr rfl))
    have hidx' : codeLuIdx (newFields t.fields)
        = some (t.fields.map FieldDef.name).length := by
      unfold codeLuIdx
      rw [if_pos hmem', hnames, List.indexOf_append_of_not_mem hmem]
      simp
    constructor
    · unfold setCodeLuTable
      dsimp only
      rw [hidx, hidx', newFields_of_idx_some hidx']
      rw [Table.mk.injEq]
      refine ⟨rfl, ?_, rfl⟩
      rw [List.map_map]
      refine List.map_congr_left ?_
      intro r hr
      have hlen : (t.fields.map FieldDef.name).length = r.length := by
        rw [List.length_map, hwf r hr]
      simp only [Function.comp_apply, transformRec]
      rw [hlen, set_append_singleton]
    · unfold setCodeLuTable
      dsimp only
      rw [hnames, List.count_append]
      have h0 : (t.fields.map FieldDef.name).count "CODE_LU" = 0 :=
        List.count_eq_zero.mpr hmem
      rw [h0]
      rfl

/-- C6 witness: the idempotence theorem at a concrete one-record bundle
without a pre-existing classification field. -/
theorem c6_augment_idempotent_witness :
    setCodeLuTable (setCodeLuTable ⟨[⟨"ID", "N", 10, 0⟩], [[.intv 1]], [5]⟩ 14) 14
        = setCodeLuTable ⟨[⟨"ID", "N", 10, 0⟩], [[.intv 1]], [5]⟩ 14 ∧
      (((setCodeLuTable ⟨[⟨"ID", "N", 10, 0⟩], [[.intv 1]], [5]⟩ 14).fields.map
          FieldDef.name).count "CODE_LU") = 1 :=
  c6_augment_idempotent ⟨[⟨"ID", "N", 10, 0⟩], [[.intv 1]], [5]⟩ 14
    (by decide) (by decide)

/-- If some member escapes the destination, the pre-extraction scan fails
with a `zipSlip` error naming an escaping member. -/
theorem scanMembers_error_of_bad {outDirResolved outDir : CPath} :
    ∀ {members : List ZMember},
      (∃ m ∈ members, insideDest outDirResolved (memberTarget outDir m) = false) →
      ∃ m, scanMembers outDirResolved outDir members = .error (.zipSlip m) ∧
        insideDest outDirResolved (memberTarget outDir m) = false := by
  intro members
  induction members with
  | nil => rintro ⟨m, hm, _⟩; exact absurd hm (List.not_mem_nil m)
  | cons m rest ih =>
      rintro ⟨b, hb, hbad⟩
      by_cases hm : insideDest outDirResolved (memberTarget outDir m) = false
      · refine ⟨m, ?_, hm⟩
        rw [scanMembers, hm]
        simp
      · have hmi : insideDest outDirResolved (memberTarget outDir m) = true := by
          cases h : insideDest outDirResolved (memberTarget outDir m)
          · exact absurd h hm
          · rfl
        have hbrest : b ∈ rest := by
          rcases List.mem_cons.mp hb with rfl | h
          · exact absurd hbad hm
          · exact h
        obtain ⟨w, hw, hwbad⟩ := ih ⟨b, hbrest, hbad⟩
        refine ⟨w, ?_, hwbad⟩
        rw [scanMembers, hmi]
        simp only [Bool.not_true]
        rw [if_neg (by simp), hw]

/-- C3: when any archive member's resolved target lies outside the
destination directory, the extractor returns the path-traversal error and
the extraction-side file system is unchanged — zero files are written,
because the scan over the member list happens before `extractall`. -/
theorem c3_zip_slip_rejects_whole_archive (members : List ZMember) (outDir : CPath)
    (fs : ZFS)
    (hbad : ∃ m ∈ members,
      insideDest (resolvePath outDir) (memberTarget outDir m) = false) :
    (∃ m, (safeExtractZip (some members) outDir fs).1 = .error (.zipSlip m) ∧
      insideDest (resolvePath outDir) (memberTarget outDir m) = false) ∧
    (safeExtractZip (some members) outDir fs).2 = fs := by
  obtain ⟨w, hw, hwbad⟩ := scanMembers_error_of_bad hbad
  constructor
  · exact ⟨w, by rw [safeExtractZip, hw], hwbad⟩
  · rw [safeExtractZip, hw]

/-- C3 witness: a member climbing out of the destination with `..`
components is rejected and nothing is written. -/
theorem c3_zip_slip_rejects_whole_archive_witness :
    (∃ m, (safeExtractZip (some [⟨false, ["..", "..", "etc", "passwd"]⟩])
        ["tmp", "out"] []).1 = .error (.zipSlip m) ∧
      insideDest (resolvePath ["tmp", "out"])
        (memberTarget ["tmp", "out"] m) = false) ∧
    (safeExtractZip (some [⟨false, ["..", "..", "etc", "passwd"]⟩])
        ["tmp", "out"] []).2 = ([] : ZFS) :=
  c3_zip_slip_rejects_whole_archive [⟨false, ["..", "..", "etc", "passwd"]⟩]
    ["tmp", "out"] []
    ⟨⟨false, ["..", "..", "etc", "passwd"]⟩, by simp, by decide⟩

/-- The success keys of a batch run are the keys of the non-failing
requests, in order. -/
theorem runBatch_success_keys (download : String → Except String String)
    (augment : String → Int → Except String Unit)
    (avail : List String) (codes : List (String × Int)) :
    ∀ selected : List (String × String),
      (runBatch download augment avail codes selected).1.map Prod.fst
        = (selected.filter
            (fun req => !layerFails download augment avail codes req)).map Prod.fst := by
  intro selected
  induction selected with
  | nil => rfl
  | cons req rest ih =>
      rw [runBatch]
      cases hp : processLayer download augment avail req.2 (codeFor codes req.1) with
      | inl s =>
          have hfail : layerFails download augment avail codes req = false := by
            unfold layerFails
            rw [hp]
          simp only [List.filter_cons, hfail, Bool.not_false, if_pos rfl]
          simpa using ih
      | inr k =>
          have hfail : layerFails download augment avail codes req = true := by
            unfold layerFails
            rw [hp]
          simp only [List.filter_cons, hfail, Bool.not_true]
          rw [if_neg (by simp)]
          simpa using ih

/-- The skipped keys of a batch run are the keys of the failing requests,
in order. -/
theorem runBatch_skipped_keys (download : String → Except String String)
    (augment : String → Int → Except String Unit)
    (avail : List String) (codes : List (String × Int)) :
    ∀ selected : List (String × String),
      (runBatch download augment avail codes selected).2.map Prod.fst
        = (selected.filter (layerFails download augment avail codes)).map Prod.fst := by
  intro selected
  induction selected with
  | nil => rfl
  | cons req rest ih =>
      rw [runBatch]
      cases hp : processLayer download augment avail req.2 (codeFor codes req.1) with
      | inl s =>
          have hfail : layerFails download augment avail codes req = false := by
            unfold layerFails
            rw [hp]
          simp only [List.filter_cons, hfail]
          rw [if_neg (by simp)]
          simpa using ih
      | inr k =>
          have hfail : layerFails download augment avail codes req = true := by
            unfold layerFails
            rw [hp]
          simp only [List.filter_cons, hfail, if_pos rfl]
          simpa using ih

/-- Every success entry of a batch run arises from a request with the
same key whose processing succeeded. -/
theorem runBatch_success_mem (download : String → Except String String)
    (augment : String → Int → Except String Unit)
    (avail : List String) (codes : List (String × Int)) {k : String} {s : LayerSuccess} :
    ∀ {selected : List (String × String)},
      (k, s) ∈ (runBatch download augment avail codes selected).1 →
      ∃ tn, (k, tn) ∈ selected ∧
        processLayer download augment avail tn (codeFor codes k) = .inl s := by
  intro selected
  induction selected with
  | nil => intro h; exact absurd h (List.not_mem_nil _)
  | cons req rest ih =>
      intro h
      rw [runBatch] at h
      cases hp : processLayer download augment avail req.2 (codeFor codes req.1) with
      | inl s' =>
          rw [hp] at h
          rcases List.mem_cons.mp h with heq | h
          · injection heq with hk hs
            subst hk
            subst hs
            exact ⟨req.2, List.mem_cons_self _ _, hp⟩
          · obtain ⟨tn, htn, hproc⟩ := ih h
            exact ⟨tn, List.mem_cons_of_mem _ htn, hproc⟩
      | inr k' =>
          rw [hp] at h
          obtain ⟨tn, htn, hproc⟩ := ih h
          exact ⟨tn, List.mem_cons_of_mem _ htn, hproc⟩

/-- A successful layer outcome reports exactly the classification code it
was processed with. -/
theorem processLayer_success_code {download : String → Except String String}
    {augment : String → Int → Except String Unit}
    {avail : List String} {tn : String} {code : Int} {s : LayerSuccess}
    (h : processLayer download augment avail tn code = .inl s) :
    s.code_lu = code := by
  unfold processLayer at h
  split at h
  · exact absurd h (by simp)
  · split at h
    · injection h with h
      rw [← h]
    · exact absurd h (by simp)

/-- C2: in a batch run over distinct layer keys, every requested key
appears in the success keys or the skipped keys, never in both; with N
requests of which M fail, the success map has N−M entries and the skipped
map M entries.  A failing layer only contributes its own skip entry — the
remaining requests are still processed, which is what the filter
characterisations of the two outcome maps express. -/
theorem c2_batch_partition (download : String → Except String String)
    (augment : String → Int → Except String Unit)
    (avail : List String) (codes : List (String × Int))
    (selected : List (String × String))
    (hnodup : (selected.map Prod.fst).Nodup) :
    (∀ k, k ∈ selected.map Prod.fst ↔
      (k ∈ (runBatch download augment avail codes selected).1.map Prod.fst ∨
        k ∈ (runBatch download augment avail codes selected).2.map Prod.fst)) ∧
    (∀ k, ¬(k ∈ (runBatch download augment avail codes selected).1.map Prod.fst ∧
        k ∈ (runBatch download augment avail codes selected).2.map Prod.fst)) ∧
    (runBatch download augment avail codes selected).1.length
        + (runBatch download augment avail codes selected).2.length
      = selected.length ∧
    (runBatch download augment avail codes selected).2.length
      = (selected.filter (layerFails download augment avail codes)).length ∧
    (runBatch download augment avail codes selected).1.length
      = selected.length
        - (selected.filter (layerFails download augment avail codes)).length := by
  have hres := runBatch_success_keys download augment avail codes selected
  have hskip := runBatch_skipped_keys download augment avail codes selected
  have hreslen : (runBatch download augment avail codes selected).1.length
      = (selected.filter
          (fun req => !layerFails download augment avail codes req)).length := by
    have h := congrArg List.length hres
    simpa using h
  have hskiplen : (runBatch download augment avail codes selected).2.length
      = (selected.filter (layerFails download augment avail codes)).length := by
    have h := congrArg List.length hskip
    simpa using h
  have hsplit := List.length_eq_length_filter_add
    (l := selected) (layerFails download augment avail codes)
  refine ⟨?_, ?_, by omega, hskiplen, by omega⟩
  · intro k
    rw [hres, hskip]
    constructor
    · intro hk
      obtain ⟨r, hr, hrk⟩ := List.mem_map.mp hk
      cases hf : layerFails download augment avail codes r
      · exact Or.inl (List.mem_map.mpr ⟨r, List.mem_filter.mpr ⟨hr, by simp [hf]⟩, hrk⟩)
      · exact Or.inr (List.mem_map.mpr ⟨r, List.mem_filter.mpr ⟨hr, hf⟩, hrk⟩)
    · intro hk
      rcases hk with hk | hk
      · obtain ⟨r, hr, hrk⟩ := List.mem_map.mp hk
        exact List.mem_map.mpr ⟨r, (List.mem_filter.mp hr).1, hrk⟩
      · obtain ⟨r, hr, hrk⟩ := List.mem_map.mp hk
        exact List.mem_map.mpr ⟨r, (List.mem_filter.mp hr).1, hrk⟩
  · rintro k ⟨h1, h2⟩
    rw [hres] at h1
    rw [hskip] at h2
    obtain ⟨r1, hr1, hr1k⟩ := List.mem_map.mp h1
    obtain ⟨r2, hr2, hr2k⟩ := List.mem_map.mp h2
    have hm1 := List.mem_filter.mp hr1
    have hm2 := List.mem_filter.mp hr2
    have hr12 : r1 = r2 :=
      List.inj_on_of_nodup_map hnodup hm1.1 hm2.1 (hr1k.trans hr2k.symm)
    have hf1 : layerFails download augment avail codes r1 = false := by
      have := hm1.2
      cases h : layerFails download augment avail codes r1
      · rfl
      · rw [h] at this; exact absurd this (by simp)
    rw [hr12, hm2.2] at hf1
    exact absurd hf1 (by simp)

/-- C2 witness: a two-layer batch in which exactly one layer fails splits
into one success and one skip. -/
theorem c2_batch_partition_witness :
    (runBatch (fun c => if c = "ta" then .ok "p.shp" else .error "down")
          (fun _ _ => .ok ()) [] [] [("A", "ta"), ("B", "tb")]).1.length
        + (runBatch (fun c => if c = "ta" then .ok "p.shp" else .error "down")
          (fun _ _ => .ok ()) [] [] [("A", "ta"), ("B", "tb")]).2.length
      = [("A", "ta"), ("B", "tb")].length :=
  (c2_batch_partition (fun c => if c = "ta" then .ok "p.shp" else .error "down")
    (fun _ _ => .ok ()) [] [] [("A", "ta"), ("B", "tb")] (by decide)).2.2.1

/-- C10: a layer key absent from the classification-code map is processed
with the default code 0 — it is not skipped for that reason: it still
lands in one of the two outcome maps, and any success entry for it
reports `code_lu = 0`. -/
theorem c10_missing_code_defaults_zero (download : String → Except String String)
    (augment : String → Int → Except String Unit)
    (avail : List String) (codes : List (String × Int))
    (selected : List (String × String)) (k tn : String)
    (hmem : (k, tn) ∈ selected) (hnone : codes.lookup k = none) :
    codeFor codes k = 0 ∧
    (∀ s, (k, s) ∈ (runBatch download augment avail codes selected).1 →
      s.code_lu = 0) ∧
    (k ∈ (runBatch download augment avail codes selected).1.map Prod.fst ∨
      k ∈ (runBatch download augment avail codes selected).2.map Prod.fst) := by
  have hcode : codeFor codes k = 0 := by
    unfold codeFor
    rw [hnone]
    rfl
  refine ⟨hcode, ?_, ?_⟩
  · intro s hs
    obtain ⟨tn', _, hproc⟩ :=
      runBatch_success_mem download augment avail codes hs
    have := processLayer_success_code hproc
    rw [this, hcode]
  · cases hf : layerFails download augment avail codes (k, tn)
    · refine Or.inl ?_
      rw [runBatch_success_keys]
      exact List.mem_map.mpr ⟨(k, tn), List.mem_filter.mpr ⟨hmem, by simp [hf]⟩, rfl⟩
    · refine Or.inr ?_
      rw [runBatch_skipped_keys]
      exact List.mem_map.mpr ⟨(k, tn), List.mem_filter.mpr ⟨hmem, hf⟩, rfl⟩

/-- C10 witness: with a code map that lacks the requested key, the
defaulted code is 0 and the layer still produces an outcome. -/
theorem c10_missing_code_defaults_zero_witness :
    codeFor [("X", 5)] "A" = 0 ∧
    ("A" ∈ (runBatch (fun _ => .ok "p.shp") (fun _ _ => .ok ()) [] [("X", 5)]
        [("A", "ta")]).1.map Prod.fst ∨
      "A" ∈ (runBatch (fun _ => .ok "p.shp") (fun _ _ => .ok ()) [] [("X", 5)]
        [("A", "ta")]).2.map Prod.fst) :=
  ⟨(c10_missing_code_defaults_zero (fun _ => .ok "p.shp") (fun _ _ => .ok ()) []
      [("X", 5)] [("A", "ta")] "A" "ta" (by decide) (by decide)).1,
    (c10_missing_code_defaults_zero (fun _ => .ok "p.shp") (fun _ _ => .ok ()) []
      [("X", 5)] [("A", "ta")] "A" "ta" (by decide) (by decide)).2.2⟩

/-- Reading a freshly written path. -/
theorem BFS.read_write_self (fs : BFS) (p : BPath) (c : FContent) :
    (fs.write p c).read p = some c := by
  simp [BFS.write, BFS.read]

/-- Unlinking another path does not change a read. -/
theorem BFS.read_unlink_ne {q p : BPath} (h : q ≠ p) :
    ∀ fs : BFS, (fs.unlink q).read p = fs.read p := by
  intro fs
  induction fs with
  | nil => rfl
  | cons e rest ih =>
      obtain ⟨a, c⟩ := e
      rw [BFS.unlink]
      by_cases ha : a = q
      · rw [if_pos ha, ih, BFS.read, if_neg (fun hc => h (by rw [← ha]; exact hc))]
      · rw [if_neg ha, BFS.read, BFS.read]
        by_cases hap : a = p
        · rw [if_pos hap, if_pos hap]
        · rw [if_neg hap, if_neg hap, ih]

/-- Unlinking a path removes it. -/
theorem BFS.read_unlink_self (p : BPath) :
    ∀ fs : BFS, (fs.unlink p).read p = none := by
  intro fs
  induction fs with
  | nil => rfl
  | cons e rest ih =>
      obtain ⟨a, c⟩ := e
      rw [BFS.unlink]
      by_cases ha : a = p
      · rw [if_pos ha]
        exact ih
      · rw [if_neg ha, BFS.read, if_neg ha]
        exact ih

/-- Writing another path does not change a read. -/
theorem BFS.read_write_ne {q p : BPath} (fs : BFS) (c : FContent) (h : q ≠ p) :
    (fs.write q c).read p = fs.read p := by
  rw [BFS.write, BFS.read, if_neg (fun hc => h hc)]
  exact BFS.read_unlink_ne h fs

/-- A temporary path is never a non-temporary path. -/
theorem tmpPath_ne_nontmp {p : BPath} (hp : p.tmp = false) (base : String) (e : BExt) :
    tmpPath base e ≠ p := by
  intro h
  rw [← h] at hp
  exact Bool.true_eq_false.mp hp

/-- Distinct extensions give distinct temporary paths. -/
theorem tmpPath_ne_ext {base : String} {e e' : BExt} (h : e ≠ e') :
    tmpPath base e ≠ tmpPath base e' := by
  intro hc
  exact h (congrArg BPath.ext hc)

/-- The temporary attribute table after a writer step. -/
theorem writeTmpState_read_dbf (base : String) (flds : List FieldDef) (gs : List Nat)
    (rs : List (List FVal)) (fs : BFS) :
    (writeTmpState base flds gs rs fs).read (tmpPath base .dbf) = some (.dbfC flds rs) :=
  BFS.read_write_self _ _ _

/-- The temporary index file after a writer step. -/
theorem writeTmpState_read_shx (base : String) (flds : List FieldDef) (gs : List Nat)
    (rs : List (List FVal)) (fs : BFS) :
    (writeTmpState base flds gs rs fs).read (tmpPath base .shx) = some (.shxC rs.length) := by
  unfold writeTmpState
  rw [BFS.read_write_ne _ _ (tmpPath_ne_ext (by simp))]
  exact BFS.read_write_self _ _ _

/-- The temporary geometry file after a writer step. -/
theorem writeTmpState_read_shp (base : String) (flds : List FieldDef) (gs : List Nat)
    (rs : List (List FVal)) (fs : BFS) :
    (writeTmpState base flds gs rs fs).read (tmpPath base .shp) = some (.shpC gs) := by
  unfold writeTmpState
  rw [BFS.read_write_ne _ _ (tmpPath_ne_ext (by simp)),
    BFS.read_write_ne _ _ (tmpPath_ne_ext (by simp))]
  exact BFS.read_write_self _ _ _

/-- A writer step never touches non-temporary paths. -/
theorem writeTmpState_read_nontmp (base : String) (flds : List FieldDef) (gs : List Nat)
    (rs : List (List FVal)) (fs : BFS) {p : BPath} (hp : p.tmp = false) :
    (writeTmpState base flds gs rs fs).read p = fs.read p := by
  unfold writeTmpState
  rw [BFS.read_write_ne _ _ (tmpPath_ne_nontmp hp base _),
    BFS.read_write_ne _ _ (tmpPath_ne_nontmp hp base _),
    BFS.read_write_ne _ _ (tmpPath_ne_nontmp hp base _)]

/-- The record loop only writes temporary paths. -/
theorem augmentLoop_read_nontmp (base : String) (flds : List FieldDef) (idx : Option Nat)
    (code : Int) (failAt : Option Nat) {p : BPath} (hp : p.tmp = false) :
    ∀ (rem : List (Nat × List FVal)) (k : Nat) (accG : List Nat)
      (accR : List (List FVal)) (fs : BFS),
      ((augmentLoop base flds idx code failAt k accG accR fs rem).elim id id).read p
        = fs.read p := by
  intro rem
  induction rem with
  | nil => intro k accG accR fs; rfl
  | cons gr rest ih =>
      intro k accG accR fs
      obtain ⟨g, r⟩ := gr
      rw [augmentLoop]
      by_cases hf : failAt = some k
      · rw [if_pos hf]
        rfl
      · rw [if_neg hf]
        dsimp only
        rw [ih]
        exact writeTmpState_read_nontmp base flds _ _ fs hp

/-- When the record loop completes, the temporary files hold the full
transformed table, geometry set, and index. -/
theorem augmentLoop_inr_reads (base : String) (flds : List FieldDef) (idx : Option Nat)
    (code : Int) (failAt : Option Nat) :
    ∀ (rem : List (Nat × List FVal)) (k : Nat) (accG : List Nat)
      (accR : List (List FVal)) (fs : BFS) (fsc : BFS),
      fs.read (tmpPath base .dbf) = some (.dbfC flds accR) →
      fs.read (tmpPath base .shp) = some (.shpC accG) →
      fs.read (tmpPath base .shx) = some (.shxC accR.length) →
      augmentLoop base flds idx code failAt k accG accR fs rem = .inr fsc →
      fsc.read (tmpPath base .dbf)
          = some (.dbfC flds (accR ++ rem.map (fun gr => transformRec idx code gr.2))) ∧
        fsc.read (tmpPath base .shp) = some (.shpC (accG ++ rem.map Prod.fst)) ∧
        fsc.read (tmpPath base .shx)
          = some (.shxC (accR ++ rem.map (fun gr => transformRec idx code gr.2)).length) := by
  intro rem
  induction rem with
  | nil =>
      intro k accG accR fs fsc hdbf hshp hshx hloop
      rw [augmentLoop] at hloop
      injection hloop with hloop
      subst hloop
      simpa using ⟨hdbf, hshp, hshx⟩
  | cons gr rest ih =>
      intro k accG accR fs fsc hdbf hshp hshx hloop
      obtain ⟨g, r⟩ := gr
      rw [augmentLoop] at hloop
      by_cases hf : failAt = some k
      · rw [if_pos hf] at hloop
        exact absurd hloop (by simp)
      · rw [if_neg hf] at hloop
        dsimp only at hloop
        have hres := ih (k + 1) (accG ++ [g]) (accR ++ [transformRec idx code r])
          (writeTmpState base flds (accG ++ [g]) (accR ++ [transformRec idx code r]) fs)
          fsc (writeTmpState_read_dbf ..) (writeTmpState_read_shp ..)
          (writeTmpState_read_shx ..) hloop
        simpa using hres

/-- The cleanup handler removes every temporary sibling. -/
theorem cleanupTmp_read_tmp (base : String) (fs : BFS) (e : BExt) :
    (cleanupTmp base fs).read (tmpPath base e) = none := by
  unfold cleanupTmp
  cases e
  · rw [BFS.read_unlink_ne (tmpPath_ne_ext (by simp)),
      BFS.read_unlink_ne (tmpPath_ne_ext (by simp))]
    exact BFS.read_unlink_self _ _
  · rw [BFS.read_unlink_ne (tmpPath_ne_ext (by simp))]
    exact BFS.read_unlink_self _ _
  · exact BFS.read_unlink_self _ _

/-- The cleanup handler does not touch non-temporary paths. -/
theorem cleanupTmp_read_nontmp (base : String) (fs : BFS) {p : BPath}
    (hp : p.tmp = false) :
    (cleanupTmp base fs).read p = fs.read p := by
  unfold cleanupTmp
  rw [BFS.read_unlink_ne (tmpPath_ne_nontmp hp base _),
    BFS.read_unlink_ne (tmpPath_ne_nontmp hp base _),
    BFS.read_unlink_ne (tmpPath_ne_nontmp hp base _)]

/-- Distinct extensions give distinct original paths. -/
theorem origPath_ne_ext {base : String} {e e' : BExt} (h : e ≠ e') :
    origPath base e ≠ origPath base e' := by
  intro hc
  exact h (congrArg BPath.ext hc)

/-- An original path is never temporary. -/
theorem origPath_tmp_false (base : String) (e : BExt) : (origPath base e).tmp = false := rfl

/-- One rename step: the original file under the renamed extension now
holds the temporary content, the temporary file is gone, and every other
extension (temporary or original) is untouched. -/
theorem replaceOne_reads (base : String) (e : BExt) (fs : BFS) (c : FContent)
    (h : fs.read (tmpPath base e) = some c) :
    (replaceOne base e fs).read (origPath base e) = some c ∧
    (replaceOne base e fs).read (tmpPath base e) = none ∧
    (∀ e', e' ≠ e → (replaceOne base e fs).read (tmpPath base e')
      = fs.read (tmpPath base e')) ∧
    (∀ e', e' ≠ e → (replaceOne base e fs).read (origPath base e')
      = fs.read (origPath base e')) := by
  have hro : replaceOne base e fs
      = (fs.write (origPath base e) c).unlink (tmpPath base e) := by
    rw [replaceOne, h]
  refine ⟨?_, ?_, ?_, ?_⟩
  · rw [hro, BFS.read_unlink_ne (tmpPath_ne_nontmp (origPath_tmp_false base e) base e)]
    exact BFS.read_write_self _ _ _
  · rw [hro]
    exact BFS.read_unlink_self _ _
  · intro e' he
    rw [hro, BFS.read_unlink_ne (tmpPath_ne_ext (fun hc => he hc.symm)),
      BFS.read_write_ne _ _
        (fun hc => Bool.true_eq_false.mp (congrArg BPath.tmp hc.symm))]
  · intro e' he
    rw [hro, BFS.read_unlink_ne (tmpPath_ne_nontmp (origPath_tmp_false base e') base e),
      BFS.read_write_ne _ _ (origPath_ne_ext (fun hc => he hc.symm))]

/-- The three rename steps together: the original bundle now holds the
three temporary contents and no temporary sibling remains. -/
theorem replaceAll_reads (base : String) (fs : BFS) (cd cs cx : FContent)
    (hdbf : fs.read (tmpPath base .dbf) = some cd)
    (hshp : fs.read (tmpPath base .shp) = some cs)
    (hshx : fs.read (tmpPath base .shx) = some cx) :
    (replaceAll base fs).read (origPath base .dbf) = some cd ∧
    (replaceAll base fs).read (origPath base .shp) = some cs ∧
    (replaceAll base fs).read (origPath base .shx) = some cx ∧
    (∀ e, (replaceAll base fs).read (tmpPath base e) = none) := by
  obtain ⟨h1o, h1t, h1tp, h1op⟩ := replaceOne_reads base .shp fs cs hshp
  have hshx1 : (replaceOne base .shp fs).read (tmpPath base .shx) = some cx := by
    rw [h1tp .shx (by simp)]
    exact hshx
  obtain ⟨h2o, h2t, h2tp, h2op⟩ :=
    replaceOne_reads base .shx (replaceOne base .shp fs) cx hshx1
  have hdbf2 : (replaceOne base .shx (replaceOne base .shp fs)).read (tmpPath base .dbf)
      = some cd := by
    rw [h2tp .dbf (by simp), h1tp .dbf (by simp)]
    exact hdbf
  obtain ⟨h3o, h3t, h3tp, h3op⟩ :=
    replaceOne_reads base .dbf (replaceOne base .shx (replaceOne base .shp fs)) cd hdbf2
  refine ⟨h3o, ?_, ?_, ?_⟩
  · rw [replaceAll, h3op .shp (by simp), h2op .shp (by simp)]
    exact h1o
  · rw [replaceAll, h3op .shx (by simp)]
    exact h2o
  · intro e
    cases e
    · rw [replaceAll, h3tp .shp (by simp), h2tp .shp (by simp)]
      exact h1t
    · rw [replaceAll, h3tp .shx (by simp)]
      exact h2t
    · rw [replaceAll]
      exact h3t

/-- C1: the augmenter is all-or-nothing.  Starting from a bundle with no
leftover temporary siblings: on any failure (unreadable bundle, encoding
exhaustion, or an exception at any record during the read/transform/write
loop) the returned state has no temporary sibling files and the original
`.shp`/`.shx`/`.dbf` files read exactly as before the call; on success the
original files hold precisely the fully rewritten table, geometry set and
index, and the temporary files are gone — the originals are replaced only
after the complete write. -/
theorem c1_augmenter_atomic (orc : AugmentOracle) (fs : BFS) (base : String) (code : Int)
    (hclean : ∀ e, fs.read (tmpPath base e) = none) :
    (∀ msg fs', setCodeLuFS orc fs base code = .error (msg, fs') →
      (∀ e, fs'.read (tmpPath base e) = none) ∧
      (∀ e, fs'.read (origPath base e) = fs.read (origPath base e))) ∧
    (∀ fs', setCodeLuFS orc fs base code = .ok fs' →
      ∃ t, readBundle fs base = some t ∧
        fs'.read (origPath base .dbf)
          = some (.dbfC (newFields t.fields)
              ((t.geoms.zip t.records).map
                (fun gr => transformRec (codeLuIdx t.fields) code gr.2))) ∧
        fs'.read (origPath base .shp)
          = some (.shpC ((t.geoms.zip t.records).map Prod.fst)) ∧
        fs'.read (origPath base .shx)
          = some (.shxC ((t.geoms.zip t.records).map
              (fun gr => transformRec (codeLuIdx t.fields) code gr.2)).length) ∧
        (∀ e, fs'.read (tmpPath base e) = none)) := by
  cases hrb : readBundle fs base with
  | none =>
      constructor
      · intro msg fs' herr
        rw [setCodeLuFS, hrb] at herr
        injection herr with herr
        have hfs : fs' = fs := congrArg Prod.snd herr.symm
        subst hfs
        exact ⟨hclean, fun e => rfl⟩
      · intro fs' hok
        rw [setCodeLuFS, hrb] at hok
        exact absurd hok (by simp)
  | some t =>
      by_cases hof : orc.openFail = true
      · constructor
        · intro msg fs' herr
          rw [setCodeLuFS, hrb] at herr
          dsimp only at herr
          rw [if_pos hof] at herr
          injection herr with herr
          have hfs : fs' = fs := congrArg Prod.snd herr.symm
          subst hfs
          exact ⟨hclean, fun e => rfl⟩
        · intro fs' hok
          rw [setCodeLuFS, hrb] at hok
          dsimp only at hok
          rw [if_pos hof] at hok
          exact absurd hok (by simp)
      · cases hloop : augmentLoop base (newFields t.fields) (codeLuIdx t.fields) code
            orc.failAt 0 [] [] (writeTmpState base (newFields t.fields) [] [] fs)
            (t.geoms.zip t.records) with
        | inl fsFail =>
            constructor
            · intro msg fs' herr
              rw [setCodeLuFS, hrb] at herr
              dsimp only at herr
              rw [if_neg hof, hloop] at herr
              injection herr with herr
              have hfs : fs' = cleanupTmp base fsFail := congrArg Prod.snd herr.symm
              subst hfs
              have hpres : ∀ p : BPath, p.tmp = false → fsFail.read p = fs.read p := by
                intro p hp
                have helim := augmentLoop_read_nontmp base (newFields t.fields)
                  (codeLuIdx t.fields) code orc.failAt hp (t.geoms.zip t.records) 0 [] []
                  (writeTmpState base (newFields t.fields) [] [] fs)
                rw [hloop] at helim
                simpa [writeTmpState_read_nontmp base (newFields t.fields) [] [] fs hp]
                  using helim
              refine ⟨cleanupTmp_read_tmp base fsFail, ?_⟩
              intro e
              rw [cleanupTmp_read_nontmp base fsFail (origPath_tmp_false base e)]
              exact hpres _ (origPath_tmp_false base e)
            · intro fs' hok
              rw [setCodeLuFS, hrb] at hok
              dsimp only at hok
              rw [if_neg hof, hloop] at hok
              exact absurd hok (by simp)
        | inr fsDone =>
            constructor
            · intro msg fs' herr
              rw [setCodeLuFS, hrb] at herr
              dsimp only at herr
              rw [if_neg hof, hloop] at herr
              exact absurd herr (by simp)
            · intro fs' hok
              rw [setCodeLuFS, hrb] at hok
              dsimp only at hok
              rw [if_neg hof, hloop] at hok
              injection hok with hok
              subst hok
              obtain ⟨hdbf, hshp, hshx⟩ := augmentLoop_inr_reads base (newFields t.fields)
                (codeLuIdx t.fields) code orc.failAt (t.geoms.zip t.records) 0 [] []
                (writeTmpState base (newFields t.fields) [] [] fs) fsDone
                (writeTmpState_read_dbf ..) (writeTmpState_read_shp ..)
                (writeTmpState_read_shx ..) hloop
              rw [List.nil_append] at hdbf hshx
              rw [List.nil_append] at hshp
              obtain ⟨ho1, ho2, ho3, ho4⟩ := replaceAll_reads base fsDone _ _ _ hdbf hshp hshx
              exact ⟨t, rfl, ho1, ho2, ho3, ho4⟩

/-- C1 witness: a failure injected at the first record of a one-record
bundle leaves the original bundle untouched and no temporary files. -/
theorem c1_augmenter_atomic_witness :
    (∀ e, (cleanupTmp "b" (writeTmpState "b" [⟨"ID", "N", 10, 0⟩, codeLuFieldDef] [] []
        [(origPath "b" .dbf, .dbfC [⟨"ID", "N", 10, 0⟩] [[.intv 1]]),
          (origPath "b" .shp, .shpC [5])])).read (tmpPath "b" e) = none) ∧
    (∀ e, (cleanupTmp "b" (writeTmpState "b" [⟨"ID", "N", 10, 0⟩, codeLuFieldDef] [] []
        [(origPath "b" .dbf, .dbfC [⟨"ID", "N", 10, 0⟩] [[.intv 1]]),
          (origPath "b" .shp, .shpC [5])])).read (origPath "b" e)
      = BFS.read [(origPath "b" .dbf, .dbfC [⟨"ID", "N", 10, 0⟩] [[.intv 1]]),
          (origPath "b" .shp, .shpC [5])] (origPath "b" e)) :=
  (c1_augmenter_atomic ⟨false, some 0⟩
      [(origPath "b" .dbf, .dbfC [⟨"ID", "N", 10, 0⟩] [[.intv 1]]),
        (origPath "b" .shp, .shpC [5])] "b" 14 (fun e => by cases e <;> rfl)).1
    "Erreur pendant la reecriture du bundle b" _ rfl

/-- The CRS validation fails exactly on a declared, nonempty name not
containing "2154". -/
theorem validateEpsg2154_error_iff (payload : JVal) (e : EmpriseError) :
    validateEpsg2154 payload = .error e ↔
      ∃ n, crsDeclName payload = some n ∧ n ≠ "" ∧ strContains n "2154" = false ∧
        e = .crsMismatch n := by
  unfold validateEpsg2154
  cases h : crsDeclName payload with
  | none => simp
  | some n =>
      dsimp only
      by_cases hc : n ≠ "" ∧ strContains n "2154" = false
      · rw [if_pos hc]
        constructor
        · intro he
          injection he with he
          exact ⟨n, rfl, hc.1, hc.2, he.symm⟩
        · rintro ⟨n', hn', _, _, rfl⟩
          injection hn' with hn'
          rw [hn']
      · rw [if_neg hc]
        constructor
        · intro he
          exact absurd he (by simp)
        · rintro ⟨n', hn', h1, h2, _⟩
          injection hn' with hn'
          subst hn'
          exact absurd ⟨h1, h2⟩ hc

/-- C9 counterexample: the code checks the declared CRS name by substring
containment of "2154", not by matching EPSG:2154.  The declaration
"EPSG:21545" does not match the expected CRS, yet the envelope extractor
succeeds on a document carrying it, refuting the claim as stated. -/
theorem c9_counterexample :
    ¬(∀ (payload : JVal) (buffer : Int) (name : String),
        crsDeclName payload = some name → ¬specCrsMatches name →
        ∃ e, getEmprise payload buffer = .error e) := by
  intro h
  obtain ⟨e, he⟩ := h
    (.jobj [("crs", .jobj [("properties", .jobj [("name", .jstr "EPSG:21545")])]),
      ("type", .jstr "Point"), ("coordinates", .jarr [.jnum 1, .jnum 2])])
    0 "EPSG:21545" rfl (by unfold specCrsMatches; decide)
  rw [show getEmprise
      (.jobj [("crs", .jobj [("properties", .jobj [("name", .jstr "EPSG:21545")])]),
        ("type", .jstr "Point"), ("coordinates", .jarr [.jnum 1, .jnum 2])]) 0
      = .ok (⟨1, 2, 1, 2⟩ : Envelope) from rfl] at he
  exact Except.noConfusion he

/-- C9 (amended): the envelope extractor fails with the CRS-mismatch
error exactly when the document is a JSON object whose embedded
declaration yields a nonempty (stripped) name that does not contain
"2154" as a substring; with no declaration, or a name containing "2154"
(which includes the expected EPSG:2154 spelling), it never fails for that
reason. -/
theorem c9_crs_validation (payload : JVal) (buffer : Int) (name : String) :
    getEmprise payload buffer = .error (.crsMismatch name) ↔
      (payload.isObj = true ∧ crsDeclName payload = some name ∧ name ≠ "" ∧
        strContains name "2154" = false) := by
  unfold getEmprise
  by_cases hobj : payload.isObj = true
  · rw [if_neg (by simp [hobj])]
    cases hval : validateEpsg2154 payload with
    | error e =>
        dsimp only
        constructor
        · intro h
          injection h with h
          obtain ⟨n, hn, h1, h2, he⟩ := (validateEpsg2154_error_iff payload e).mp hval
          rw [he] at h
          injection h with h
          subst h
          exact ⟨hobj, hn, h1, h2⟩
        · rintro ⟨_, hn, h1, h2⟩
          have hv : validateEpsg2154 payload = .error (.crsMismatch name) := by
            unfold validateEpsg2154
            rw [hn]
            dsimp only
            rw [if_pos ⟨h1, h2⟩]
          rw [hval] at hv
          injection hv with hv
          rw [hv]
    | ok u =>
        dsimp only
        constructor
        · intro h
          exfalso
          cases hfe : foldEnvelope (allPoints payload) with
          | none =>
              rw [hfe] at h
              dsimp only at h
              injection h with h
              exact EmpriseError.noConfusion h
          | some env =>
              rw [hfe] at h
              dsimp only at h
              by_cases hb : buffer < 0
              · rw [if_pos hb] at h
                injection h with h
                exact EmpriseError.noConfusion h
              · rw [if_neg hb] at h
                exact Except.noConfusion h
        · rintro ⟨_, hn, h1, h2⟩
          have hv : validateEpsg2154 payload = .error (.crsMismatch name) := by
            unfold validateEpsg2154
            rw [hn]
            dsimp only
            rw [if_pos ⟨h1, h2⟩]
          rw [hval] at hv
          exact absurd hv (by simp)
  · have hobj' : payload.isObj = false := by
      cases h : payload.isObj
      · rfl
      · exact absurd h hobj
    rw [if_pos (by simp [hobj'])]
    constructor
    · intro h
      injection h with h
      exact absurd h (by simp)
    · rintro ⟨h, _⟩
      exact absurd h hobj

/-- C9 witness: the amended characterisation at a concrete document with
a mismatching declaration, and at one with a matching declaration. -/
theorem c9_crs_validation_witness :
    getEmprise (.jobj [("crs", .jobj [("properties", .jobj [("name", .jstr "EPSG:4326")])]),
        ("type", .jstr "Point"), ("coordinates", .jarr [.jnum 1, .jnum 2])]) 0
      = .error (.crsMismatch "EPSG:4326") ∧
    ¬(getEmprise (.jobj [("crs", .jobj [("properties", .jobj [("name", .jstr "EPSG:2154")])]),
        ("type", .jstr "Point"), ("coordinates", .jarr [.jnum 3, .jnum 4])]) 0
      = .error (.crsMismatch "EPSG:2154")) :=
  ⟨(c9_crs_validation
      (.jobj [("crs", .jobj [("properties", .jobj [("name", .jstr "EPSG:4326")])]),
        ("type", .jstr "Point"), ("coordinates", .jarr [.jnum 1, .jnum 2])]) 0
      "EPSG:4326").mpr ⟨rfl, rfl, by decide, by decide⟩,
    fun h =>
      by
        have := (c9_crs_validation
          (.jobj [("crs", .jobj [("properties", .jobj [("name", .jstr "EPSG:2154")])]),
            ("type", .jstr "Point"), ("coordinates", .jarr [.jnum 3, .jnum 4])]) 0
          "EPSG:2154").mp h
        exact absurd this.2.2.2 (by decide)⟩

end BdTopo
